import Mathlib

/-!
Verification of the ypath repository: a shallow embedding in Lean 4 of

* `quick_prototxt.py` — the structured codec between generic ordered document
  values and Protobuf text format (`load_prototxt` / `dump_prototxt`),
* `ypath.py` — the YPath query engine (parsing and evaluation),
* `pb_utils.py` — the prototxt stream block splitter (`StreamReader`),
* `ptgrep.py` — the pipeline driver (`main`).

The external generic YAML parser/serializer is out of the repository; its use
is idealized: serializing and re-parsing the flattened synthetic-key document
is modelled as the identity on the structural value, except for the one
behaviour the codec explicitly relies on, namely that the serializer sorts the
keys of every mapping (pyYAML `sort_keys` default, which `dump_prototxt`
documents as "sorting is a required default behavior").
-/

namespace QP

/-- The generic ordered Document Value produced by `load_prototxt`:
scalars (null / bool / int / text), lists for repeated fields, and
insertion-ordered mappings (Python `dict`) represented as ordered
association lists. -/
inductive Value where
  | null : Value
  | bool : Bool → Value
  | int  : Int → Value
  | str  : String → Value
  | list : List Value → Value
  | map  : List (String × Value) → Value
deriving Repr

/-- Python string comparison: lexicographic on code points
(used by the external serializer when sorting mapping keys). -/
def charListLt : List Char → List Char → Bool
  | [], [] => false
  | [], _ :: _ => true
  | _ :: _, [] => false
  | a :: as, b :: bs =>
    if a.toNat < b.toNat then true
    else if b.toNat < a.toNat then false
    else charListLt as bs

/-- `a <= b` on Python strings. -/
def keyLe (a b : String) : Bool := !(charListLt b.data a.data)

/-- Decimal digits of `n`, most significant first (`fuel ≥ n + 1` suffices,
and every caller passes `n + 1`). -/
def natDigits : Nat → Nat → List Char
  | 0, _ => []
  | fuel + 1, n =>
    if n < 10 then [Nat.digitChar n]
    else natDigits fuel (n / 10) ++ [Nat.digitChar (n % 10)]

/-- `'{:09d}'.format(n)` — the `UNAME_ID_FORMAT` of `quick_prototxt.py`:
the decimal digits of `n`, left-padded with zeros to at least 9 characters. -/
def pad9 (n : Nat) : String :=
  let s := natDigits (n + 1) n
  if s.length < 9 then String.mk (List.replicate (9 - s.length) '0' ++ s)
  else String.mk s

/-- The reserved synthetic delimiter `DELIMITER = '@'`. -/
def DELIM : Char := '\x40'

/-- The synthetic key emitted for item `i` of list field `k`:
`prefix = str(ok) + DELIMITER; nk = prefix + UNAME_ID_FORMAT.format(idx)`. -/
def synKey (k : String) (i : Nat) : String := k ++ String.mk [DELIM] ++ pad9 i

/-- Python `dict.get`: first binding of the key, if any. -/
def getA : List (String × Value) → String → Option Value
  | [], _ => none
  | (k, v) :: rest, key => if k = key then some v else getA rest key

/-- Python `dict.__setitem__`: replace the value in place if the key is
present (position preserved), otherwise append a fresh binding. -/
def setA : List (String × Value) → String → Value → List (String × Value)
  | [], key, v => [(key, v)]
  | (k, w) :: rest, key, v =>
    if k = key then (key, v) :: rest else (k, w) :: setA rest key v

/-- One step of `restore_key` in `load_prototxt` (lines 145-157): insert the
restored value `nv` for original key `ok` into the accumulated dict `oo`:
absent or stored `None` → plain assignment; stored list → append; stored
non-list → promote to a two-element list.  (`oo.get(ok) is None` cannot
distinguish an absent key from a stored `None`, which is why a stored null is
overwritten.) -/
def restoreStep (oo : List (String × Value)) (ok : String) (nv : Value) :
    List (String × Value) :=
  match getA oo ok with
  | none => setA oo ok nv
  | some .null => setA oo ok nv
  | some (.list l) => setA oo ok (.list (l ++ [nv]))
  | some ov => setA oo ok (.list [ov, nv])

mutual
/-- `restore_key` of `load_prototxt`: recurse into dict values, then merge
entries left to right with `restoreStep`.  Non-dict values are untouched. -/
def restoreVal : Value → Value
  | .map fs => .map (restoreFields fs [])
  | v => v

/-- The entry loop of `restore_key`, with the accumulated output dict `oo`. -/
def restoreFields : List (String × Value) → List (String × Value) →
    List (String × Value)
  | [], oo => oo
  | (k, v) :: rest, oo => restoreFields rest (restoreStep oo k (restoreVal v))
end

/-! ### The string-value pipeline of the codec

`dump_prototxt` tags every non-numeric string value with `str_tag = '!str '`
(line 241).  The serializer then emits each string leaf of the flattened
document as a quoted scalar (every such leaf is either tagged, so begins
with `!`, or looks numeric — both force quoting); `fix_value_quote` (lines
306-337) rewrites each tagged quoted value: the tag is dropped, and the
value is left bare when `unquote_rule` (default `str.isupper`) accepts it,
re-quoted otherwise.  On decode the generic parser resolves each scalar
token: a quoted token is the enclosed text, and a bare token goes through
the YAML 1.1 implicit resolvers — which is where a bare `TRUE` comes back
as a boolean. -/

/-- `str_tag = '!str '` (line 218). -/
def STR_TAG : String := "!str "

def isPrefixCL : List Char → List Char → Bool
  | [], _ => true
  | _ :: _, [] => false
  | p :: ps, c :: cs => p = c && isPrefixCL ps cs

/-- ASCII whitespace, as stripped by Python `float`. -/
def pySpc (c : Char) : Bool :=
  c = ' ' || c = '\t' || c = '\n' || c = '\r' || c = '\x0b' || c = '\x0c'

def dropTrail (p : Char → Bool) (cs : List Char) : List Char :=
  (cs.reverse.dropWhile p).reverse

/-- `s.rstrip('f')` of `is_numeric`. -/
def rstripF (cs : List Char) : List Char := dropTrail (fun c => c = 'f') cs

def stripWs (cs : List Char) : List Char := dropTrail pySpc (cs.dropWhile pySpc)

/-- Case-insensitive (ASCII) prefix test, for the `re.IGNORECASE` matches of
`is_numeric` (`re.match` anchors at the start only, so only the prefix must
match). -/
def startsCI : List Char → List Char → Bool
  | [], _ => true
  | _ :: _, [] => false
  | p :: ps, c :: cs => c.toLower = p && startsCI ps cs

/-- Case-insensitive full match. -/
def ciEq (p : List Char) (cs : List Char) : Bool :=
  decide (cs.length = p.length) && startsCI p cs

/-- The optional leading minus of the `-?inf...` prefix pattern. -/
def dropMinus : List Char → List Char
  | '-' :: t => t
  | t => t

/-- An optional leading sign. -/
def dropSign : List Char → List Char
  | c :: t => if c = '+' ∨ c = '-' then t else c :: t
  | [] => []

/-- Continuation of a digit sequence in a Python numeric literal: further
digits, with single underscores allowed only between digits (PEP 515). -/
def digitsTail : List Char → Option (List Char)
  | [] => some []
  | '_' :: rest =>
    match rest with
    | c :: rest2 => if c.isDigit then digitsTail rest2 else none
    | [] => none
  | c :: rest => if c.isDigit then digitsTail rest else some (c :: rest)

def digitPart : List Char → Option (List Char)
  | c :: rest => if c.isDigit then digitsTail rest else none
  | [] => none

/-- `digitpart [. [digitpart]] | . digitpart` — the mantissa of a Python
float literal. -/
def floatMantissa (cs : List Char) : Option (List Char) :=
  match cs with
  | '.' :: rest => digitPart rest
  | _ =>
    (digitPart cs).bind fun r =>
      match r with
      | '.' :: rest2 =>
        match rest2 with
        | c :: _ => if c.isDigit then digitPart rest2 else some rest2
        | [] => some []
      | _ => some r

def expPart : List Char → Option (List Char)
  | [] => some []
  | c :: rest =>
    if c = 'e' ∨ c = 'E' then
      match rest with
      | s :: rest2 => if s = '+' ∨ s = '-' then digitPart rest2 else digitPart rest
      | [] => none
    else some (c :: rest)

/-- Python `float(s)` acceptance: optional surrounding whitespace and sign,
then `inf` / `infinity` / `nan` in any case, or a decimal literal with an
optional exponent. -/
def pyFloatOk (cs0 : List Char) : Bool :=
  let cs2 := dropSign (stripWs cs0)
  ciEq ['i','n','f'] cs2 || ciEq ['i','n','f','i','n','i','t','y'] cs2 ||
  ciEq ['n','a','n'] cs2 ||
  (match (floatMantissa cs2).bind expPart with
   | some [] => true
   | _ => false)

/-- `is_numeric` of `dump_prototxt` (lines 221-231): a prefix match of
`-?inf(?:inity)?f?` or of `nanf?` (case-insensitive; everything after
`inf` / `nan` is optional and `re.match` needs only the prefix), else
`float(s.rstrip('f'))` must parse. -/
def isNumericStr (s : String) : Bool :=
  startsCI ['i','n','f'] (dropMinus s.data) ||
  startsCI ['n','a','n'] s.data ||
  pyFloatOk (rstripF s.data)

/-- Python `str.isupper` (ASCII): at least one cased character and no
lowercase one. -/
def pyIsUpper (s : String) : Bool :=
  s.data.any Char.isUpper && !(s.data.any Char.isLower)

/-- Line 241: a numeric-looking string value passes through untagged, any
other string value gets the tag. -/
def strEncode (s : String) : String :=
  if isNumericStr s then s else STR_TAG ++ s

/-- A double-quoted scalar token.  The idealized serializer quotes every
string leaf of the flattened document with the preferred double quote
(every such leaf is `!str `-tagged or numeric-looking, so the real
serializer must quote it too). -/
def quoteWrap (s : String) : String := String.mk ('\x22' :: (s.data ++ ['\x22']))

/-- `fix_value_quote` (lines 306-337) on one emitted value token: a quoted
token carrying the tag loses it, and the value is left bare when
`unquote_rule` (default `str.isupper`) accepts it, re-quoted otherwise; any
other token is left as emitted.  (With the uniform double quote the
source's quote-preference branch always keeps the double quote.) -/
def fixValueQuoteL : List Char → String
  | q :: rest =>
    if (q = '\x22' || q = '\x27') && isPrefixCL STR_TAG.data rest then
      let v := String.mk ((rest.drop 5).dropLast)
      if pyIsUpper v then v else quoteWrap v
    else String.mk (q :: rest)
  | [] => String.mk []

def fixValueQuote (t : String) : String := fixValueQuoteL t.data

mutual
/-- The emitted form of the flattened document: serializer quoting then
`fix_value_quote` on every string leaf; keys and non-string scalars are
reproduced by the generic serializer. -/
def emitVal : Value → Value
  | .str s => .str (fixValueQuote (quoteWrap s))
  | .map fs => .map (emitFields fs)
  | .list xs => .list (emitItems xs)
  | v => v

def emitFields : List (String × Value) → List (String × Value)
  | [] => []
  | (k, v) :: rest => (k, emitVal v) :: emitFields rest

def emitItems : List Value → List Value
  | [] => []
  | x :: rest => emitVal x :: emitItems rest
end

/-- pyYAML `SafeLoader` implicit boolean words (true). -/
def yamlBoolTrue (t : String) : Bool :=
  t = "yes" || t = "Yes" || t = "YES" || t = "true" || t = "True" || t = "TRUE" ||
  t = "on" || t = "On" || t = "ON"

/-- pyYAML `SafeLoader` implicit boolean words (false). -/
def yamlBoolFalse (t : String) : Bool :=
  t = "no" || t = "No" || t = "NO" || t = "false" || t = "False" || t = "FALSE" ||
  t = "off" || t = "Off" || t = "OFF"

/-- pyYAML `SafeLoader` implicit null words (the empty token included). -/
def yamlNullTok (t : String) : Bool :=
  t = "~" || t = "null" || t = "Null" || t = "NULL" || t = ""

/-- A digit or the underscore pyYAML allows freely inside numbers. -/
def digU (c : Char) : Bool := c.isDigit || c = '_'

/-- One sexagesimal group body (between colons): `[0-5]?[0-9]`. -/
def sexaChunk : List Char → Bool
  | [a] => a.isDigit
  | [a, b] => a.isDigit && b.isDigit && decide (a.toNat ≤ 53)
  | _ => false

/-- `(:[0-5]?[0-9])+` to the end of the token (groups are delimited by the
colons, so matching is unambiguous). -/
def sexaGroupsF : Nat → List Char → Bool
  | 0, _ => false
  | fuel + 1, cs =>
    match cs with
    | ':' :: rest =>
      let g := rest.takeWhile (fun c => c != ':')
      let r := rest.drop g.length
      sexaChunk g && (r.isEmpty || sexaGroupsF fuel r)
    | _ => false

def sexaGroups (cs : List Char) : Bool := sexaGroupsF cs.length cs

/-- The pyYAML implicit `int` resolver pattern: binary, octal, decimal,
hexadecimal or sexagesimal. -/
def yamlIntTok (t : String) : Bool :=
  match dropSign t.data with
  | '0' :: 'b' :: rest => !rest.isEmpty && rest.all (fun c => c = '0' || c = '1' || c = '_')
  | '0' :: 'x' :: rest =>
    !rest.isEmpty && rest.all (fun c => c.isDigit ||
      (97 ≤ c.toNat && c.toNat ≤ 102) || (65 ≤ c.toNat && c.toNat ≤ 70) || c = '_')
  | '0' :: rest => rest.all (fun c => (48 ≤ c.toNat && c.toNat ≤ 55) || c = '_')
  | c :: rest =>
    (49 ≤ c.toNat && c.toNat ≤ 57) &&
    (let r := rest.dropWhile digU
     r.isEmpty || sexaGroups r)
  | [] => false

/-- `[eE][-+][0-9]+` to the end (pyYAML requires the exponent sign). -/
def yamlExpOk : List Char → Bool
  | [] => true
  | c :: s :: rest =>
    (c = 'e' || c = 'E') && (s = '+' || s = '-') &&
    !rest.isEmpty && rest.all Char.isDigit
  | _ => false

/-- The pyYAML implicit `float` resolver pattern. -/
def yamlFloatTok (t : String) : Bool :=
  let signed := match t.data with
    | c :: _ => c = '+' || c = '-'
    | [] => false
  match dropSign t.data with
  | '.' :: w =>
    (w = ['i','n','f'] || w = ['I','n','f'] || w = ['I','N','F']) ||
    (!signed && (w = ['n','a','n'] || w = ['N','a','N'] || w = ['N','A','N'])) ||
    (!signed &&
      (match w with
       | c :: _ => digU c && yamlExpOk (w.dropWhile digU)
       | [] => false))
  | c :: rest =>
    c.isDigit &&
    (let r := rest.dropWhile digU
     match r with
     | '.' :: r2 => yamlExpOk (r2.dropWhile digU)
     | ':' :: _ =>
       (match r.dropWhile (fun d => d.isDigit || d = ':') with
        | '.' :: r3 => sexaGroups (r.takeWhile (fun d => d.isDigit || d = ':')) &&
            r3.all Char.isDigit
        | _ => false)
     | _ => false)
  | [] => false

def dExact : Nat → List Char → Option (List Char)
  | 0, cs => some cs
  | n + 1, c :: cs => if c.isDigit then dExact n cs else none
  | _ + 1, [] => none

def dOneTwo : List Char → Option (List Char)
  | a :: b :: rest =>
    if a.isDigit then (if b.isDigit then some rest else some (b :: rest)) else none
  | [a] => if a.isDigit then some [] else none
  | [] => none

def chomp (c : Char) : List Char → Option (List Char)
  | d :: rest => if d = c then some rest else none
  | [] => none

def tsSep : List Char → Option (List Char)
  | c :: rest =>
    if c = 'T' ∨ c = 't' then some rest
    else if c = ' ' ∨ c = '\t' then some (rest.dropWhile (fun d => d = ' ' || d = '\t'))
    else none
  | [] => none

def tsFrac : List Char → List Char
  | '.' :: rest => rest.dropWhile Char.isDigit
  | cs => cs

def tsTz : List Char → Bool
  | [] => true
  | cs =>
    match cs.dropWhile (fun d => d = ' ' || d = '\t') with
    | ['Z'] => true
    | c :: rest =>
      (c = '+' || c = '-') &&
      (match dOneTwo rest with
       | some [] => true
       | some (':' :: r2) => (match dExact 2 r2 with | some [] => true | _ => false)
       | _ => false)
    | [] => false

/-- The pyYAML implicit `timestamp` resolver pattern: a plain date, or a
date-time with `T`/space separator, optional fraction and timezone. -/
def yamlTsTok (t : String) : Bool :=
  (match ((((dExact 4 t.data).bind (chomp '-')).bind (dExact 2)).bind
      (chomp '-')).bind (dExact 2) with
   | some [] => true
   | _ => false) ||
  (match (((((((((dExact 4 t.data).bind (chomp '-')).bind dOneTwo).bind
      (chomp '-')).bind dOneTwo).bind tsSep).bind dOneTwo).bind
      (chomp ':')).bind (dExact 2)).bind ((chomp ':') · ) |>.bind (dExact 2) with
   | some rest => tsTz (tsFrac rest)
   | none => false)

/-- The generic loader's implicit resolution of one bare scalar token
(pyYAML `SafeLoader`): boolean and null words load as booleans and null; a
token matching the `int`, `float` or `timestamp` pattern loads as a number
or `datetime` object — never as the token text, and (beyond booleans and
null) outside the scalars the `Value` domain models — represented `none`;
anything else is the string itself. -/
def yamlResolve (t : String) : Option Value :=
  if yamlBoolTrue t then some (.bool true)
  else if yamlBoolFalse t then some (.bool false)
  else if yamlNullTok t then some .null
  else if yamlIntTok t || yamlFloatTok t || yamlTsTok t then none
  else some (.str t)

/-- One scalar token as the generic loader reads it: a quoted token is the
enclosed text, a bare token goes through implicit resolution. -/
def loadTok (t : String) : Option Value :=
  match t.data with
  | c :: rest =>
    if c = '\x22' || c = '\x27' then some (.str (String.mk rest.dropLast))
    else yamlResolve t
  | [] => yamlResolve t

mutual
/-- The generic parse of the emitted text: resolve every string leaf;
`none` when some leaf loads outside the modelled domain. -/
def loadLeaves : Value → Option Value
  | .str t => loadTok t
  | .map fs => (loadLeavesF fs).map .map
  | .list xs => (loadLeavesI xs).map .list
  | v => some v

def loadLeavesF : List (String × Value) → Option (List (String × Value))
  | [] => some []
  | (k, v) :: rest =>
    (loadLeaves v).bind fun w => (loadLeavesF rest).map fun r => (k, w) :: r

def loadLeavesI : List Value → Option (List Value)
  | [] => some []
  | x :: rest =>
    (loadLeaves x).bind fun w => (loadLeavesI rest).map fun r => w :: r
end

/-- The loader returns the bare token as its own text. -/
def tokSelf (t : String) : Bool :=
  match loadTok t with
  | some (.str u) => u = t
  | _ => false

/-- A dict string value survives the encode/emit/decode pipeline: a numeric
string stays quoted, a non-uppercase string is re-quoted after the tag is
stripped, and an uppercase string is emitted bare, so it must be one the
implicit resolvers leave as text. -/
def strSafe (s : String) : Bool :=
  if isNumericStr s then true
  else if pyIsUpper s then tokSelf s
  else true

/-- A repeated-field string item is never tagged (line 249 copies items
untouched); it survives quoted unless it itself begins with the tag, which
`fix_value_quote` would strip. -/
def itemStrSafe (s : String) : Bool := !(isPrefixCL STR_TAG.data s.data)

/-- The constraint failures `dump_prototxt` raises on (its `assert`s). -/
inductive EncErr where
  | bareTopList : EncErr
  | delimiterInKey : String → EncErr
  | nestedList : EncErr
deriving Repr, DecidableEq

mutual
/-- `replace_key_value` of `dump_prototxt` (lines 233-253): flatten every
list-valued field into consecutive synthetic `name@NNNNNNNNN` entries,
recursing into dict values; tag every non-numeric string value with
`str_tag` (line 241, `strEncode`); assert that no field name contains the
delimiter and that no list item is itself a list.  (List items are copied
untouched — strings among them are not tagged.) -/
def replaceKeyValue : List (String × Value) → Except EncErr (List (String × Value))
  | [] => .ok []
  | (ok, ov) :: rest =>
    if DELIM ∈ ok.data then .error (.delimiterInKey ok)
    else
      match ov with
      | .map fs =>
        (replaceKeyValue fs).bind fun nf =>
          (replaceKeyValue rest).map fun nr => (ok, .map nf) :: nr
      | .list items =>
        (expandList ok 0 items).bind fun flat =>
          (replaceKeyValue rest).map fun nr => flat ++ nr
      | .str sv => (replaceKeyValue rest).map fun nr => (ok, .str (strEncode sv)) :: nr
      | v => (replaceKeyValue rest).map fun nr => (ok, v) :: nr

/-- The inner list loop of `replace_key_value`: item `idx` of field `ok`
becomes the synthetic entry `ok@{:09d}.format(idx)`; a list item raises. -/
def expandList (ok : String) (idx : Nat) : List Value → Except EncErr (List (String × Value))
  | [] => .ok []
  | .list _ :: _ => .error .nestedList
  | .map fs :: rest =>
    (replaceKeyValue fs).bind fun nf =>
      (expandList ok (idx + 1) rest).map fun r => (synKey ok idx, .map nf) :: r
  | oi :: rest =>
    (expandList ok (idx + 1) rest).map fun r => (synKey ok idx, oi) :: r
end

mutual
/-- The external serializer's key sorting (pyYAML `sort_keys` default),
applied to every mapping level of the flattened document. -/
def sortVal : Value → Value
  | .map fs => .map (sortFields fs)
  | .list xs => .list (sortList xs)
  | v => v

def sortFields : List (String × Value) → List (String × Value)
  | fs => (sortPairs fs).mergeSort (fun a b => keyLe a.1 b.1)

def sortPairs : List (String × Value) → List (String × Value)
  | [] => []
  | (k, v) :: rest => (k, sortVal v) :: sortPairs rest

def sortList : List Value → List Value
  | [] => []
  | v :: rest => sortVal v :: sortList rest
end

/-- The textual `restore_key` of `dump_prototxt` (lines 255-266): strip the
synthetic `@index` suffix from every emitted key, leaving the original base
name (original names never contain the delimiter, by the encode assert). -/
def stripKey (k : String) : String := String.mk (k.data.takeWhile (fun c => c != DELIM))

mutual
def stripVal : Value → Value
  | .map fs => .map (stripFields fs)
  | v => v

def stripFields : List (String × Value) → List (String × Value)
  | [] => []
  | (k, v) :: rest => (stripKey k, stripVal v) :: stripFields rest
end

/-- Structural content of `dump_prototxt` (lines 173-347): reject a bare
top-level list; a top-level string is emitted bare when `unquote_rule`
(default `str.isupper`) accepts it, quoted otherwise (lines 206-216), and
other scalars are reproduced; for a dict, run `replace_key_value`,
serialize with per-level key sorting, strip the synthetic suffixes from the
emitted keys (the textual `restore_key`), and run `fix_value_quote` over
the string leaves (`emitFields`).  `fix_mapping_end_break` only re-lays-out
lines, so the returned `.map` value denotes exactly the emitted text's
ordered field sequence with its scalar tokens. -/
def dumpStruct : Value → Except EncErr Value
  | .list _ => .error .bareTopList
  | .map fs =>
    match replaceKeyValue fs with
    | .error e => .error e
    | .ok nf => .ok (.map (emitFields (stripFields (sortFields nf))))
  | .str s => .ok (.str (if pyIsUpper s then s else quoteWrap s))
  | v => .ok v

/-- `\w` for ASCII identifiers: letter, digit or underscore. -/
def isWordChar (c : Char) : Bool := c.isAlpha || c.isDigit || c = '_'

/-- A Protobuf field name: `[a-zA-Z]\w*`. -/
def isIdent (s : String) : Bool :=
  match s.data with
  | [] => false
  | c :: cs => c.isAlpha && cs.all isWordChar

/-- Strict `chainLt` on the synthetic key sequence of one mapping level:
adjacent keys strictly increasing in Python string order. -/
def chainKeysLt : List String → Bool
  | [] => true
  | [_] => true
  | a :: b :: t => charListLt a.data b.data && chainKeysLt (b :: t)

/-- The synthetic keys emitted for the items of list field `k`, starting at
item index `i`. -/
def synKeysList (k : String) (i : Nat) : List Value → List String
  | [] => []
  | _ :: rest => synKey k i :: synKeysList k (i + 1) rest

/-- The synthetic key sequence `replace_key_value` emits for one level. -/
def synKeys : List (String × Value) → List String
  | [] => []
  | (k, .list xs) :: rest => synKeysList k 0 xs ++ synKeys rest
  | (k, _) :: rest => k :: synKeys rest

mutual
/-- Claim C1's well-formedness together with the amendment conditions that
the code forces: every field name is an identifier, names are unique per
level, every list has between 2 and 10^9 items, no list item is a list, the
first item of a list is not Null, and the synthetic key sequence of every
level is strictly sorted (the external serializer sorts keys, and the codec
relies on that order). -/
def rtFields : List (String × Value) → Bool
  | fs => namesOk fs && (names fs).Nodup && chainKeysLt (synKeys fs) && valsOk fs

def namesOk : List (String × Value) → Bool
  | [] => true
  | (k, _) :: rest => isIdent k && namesOk rest

def names : List (String × Value) → List String
  | [] => []
  | (k, _) :: rest => k :: names rest

def valsOk : List (String × Value) → Bool
  | [] => true
  | (_, v) :: rest => rtVal v && valsOk rest

def rtVal : Value → Bool
  | .map fs => rtFields fs
  | .list xs =>
    (decide (2 ≤ xs.length)) && (decide (xs.length ≤ 10 ^ 9)) &&
    headNotNull xs && itemsOk xs
  | _ => true

def headNotNull : List Value → Bool
  | .null :: _ => false
  | _ => true

def itemsOk : List Value → Bool
  | [] => true
  | .list _ :: _ => false
  | .map fs :: rest => rtFields fs && itemsOk rest
  | _ :: rest => itemsOk rest
end

mutual
/-- The string-safety amendment: every dict string value is `strSafe`
(numeric, or not fully uppercase, or an uppercase token the implicit
resolvers leave as text), and every repeated-field string item does not
itself begin with the `str_tag`. -/
def strsOkV : Value → Bool
  | .str s => strSafe s
  | .map fs => strsOkF fs
  | .list xs => strsOkI xs
  | _ => true

def strsOkF : List (String × Value) → Bool
  | [] => true
  | (_, v) :: rest => strsOkV v && strsOkF rest

def strsOkI : List Value → Bool
  | [] => true
  | .str s :: rest => itemStrSafe s && strsOkI rest
  | x :: rest => strsOkV x && strsOkI rest
end

mutual
/-- Spec side, claim C7: some list is directly nested inside another list. -/
def specNestedList : Value → Bool
  | .map fs => specNestedListFs fs
  | .list xs => specNestedListItems xs
  | _ => false

def specNestedListFs : List (String × Value) → Bool
  | [] => false
  | (_, v) :: rest => specNestedList v || specNestedListFs rest

def specNestedListItems : List Value → Bool
  | [] => false
  | .list _ :: _ => true
  | x :: rest => specNestedList x || specNestedListItems rest
end

mutual
/-- Spec side, claim C7: some field name contains the reserved synthetic
delimiter character `@`. -/
def specBadName : Value → Bool
  | .map fs => specBadNameFs fs
  | .list xs => specBadNameItems xs
  | _ => false

def specBadNameFs : List (String × Value) → Bool
  | [] => false
  | (k, v) :: rest => k.data.contains DELIM || specBadName v || specBadNameFs rest

def specBadNameItems : List Value → Bool
  | [] => false
  | x :: rest => specBadName x || specBadNameItems rest
end

/-- Spec side, claim C7: the three constraint violations Encode rejects. -/
def specViolation (v : Value) : Bool :=
  (match v with | .list _ => true | _ => false) || specNestedList v || specBadName v

/-- Did Encode reject the value? -/
def encFails : Except EncErr Value → Bool
  | .error _ => true
  | .ok _ => false

mutual
/-- Claim C1's well-formedness exactly as stated (no amendment): an ordered
map of identifier-named fields unique per level, whose values are scalars,
nested maps, or lists representing repeated fields, with no list directly
inside a list. -/
def wfFields : List (String × Value) → Bool
  | fs => namesOk fs && (names fs).Nodup && wfVals fs

def wfVals : List (String × Value) → Bool
  | [] => true
  | (_, v) :: rest => wfVal v && wfVals rest

def wfVal : Value → Bool
  | .map fs => wfFields fs
  | .list xs => wfItems xs
  | _ => true

def wfItems : List Value → Bool
  | [] => true
  | .list _ :: _ => false
  | .map fs :: rest => wfFields fs && wfItems rest
  | _ :: rest => wfItems rest
end

/-- Scalar Document Values (not a list, not a map). -/
def isScalar : Value → Bool
  | .null => true
  | .bool _ => true
  | .int _ => true
  | .str _ => true
  | _ => false

/-! ### Proof helpers for the round-trip theorem

`flatT`/`expandT` are the total companions of `replaceKeyValue`/`expandList`:
on inputs that satisfy the encode constraints the two agree (`rkv_eq_flatT`
below), and the total form is convenient to reason about. -/

mutual
def flatT : List (String × Value) → List (String × Value)
  | [] => []
  | (k, .map fs) :: rest => (k, .map (flatT fs)) :: flatT rest
  | (k, .list xs) :: rest => expandT k 0 xs ++ flatT rest
  | (k, .str s) :: rest => (k, .str (strEncode s)) :: flatT rest
  | (k, v) :: rest => (k, v) :: flatT rest

def expandT (k : String) (i : Nat) : List Value → List (String × Value)
  | [] => []
  | .map fs :: rest => (synKey k i, .map (flatT fs)) :: expandT k (i + 1) rest
  | x :: rest => (synKey k i, x) :: expandT k (i + 1) rest
end

/-! `plainT` is the flattening without the string tagging: the value
skeleton the decode side reconstructs once every emitted token has been
resolved back to its string.  A proof-side companion of `flatT`. -/
mutual
def plainT : List (String × Value) → List (String × Value)
  | [] => []
  | (k, .map fs) :: rest => (k, .map (plainT fs)) :: plainT rest
  | (k, .list xs) :: rest => expandP k 0 xs ++ plainT rest
  | (k, v) :: rest => (k, v) :: plainT rest

def expandP (k : String) (i : Nat) : List Value → List (String × Value)
  | [] => []
  | .map fs :: rest => (synKey k i, .map (plainT fs)) :: expandP k (i + 1) rest
  | x :: rest => (synKey k i, x) :: expandP k (i + 1) rest
end

theorem restoreVal_nonmap {v : Value} (h : ∀ fs, v ≠ .map fs) : restoreVal v = v := by
  cases v <;> first | rfl | exact absurd rfl (h _)

/-- The simp set that evaluates the codec on concrete values. -/
theorem delim_eq : DELIM = '\x40' := rfl

/-- C9: in `restore_key`, when the same field name occurs twice at one level
and the first occurrence's value is Null, the stored Null is overwritten by
the next occurrence's value instead of being promoted to a list, so the
decoded map holds a single value for that name (the repeat count is lost). -/
theorem restore_key_null_first_overwrites (k : String) (v : Value)
    (hs : isScalar v = true) (hn : v ≠ .null) :
    restoreVal (.map [(k, .null), (k, v)]) = .map [(k, v)] := by
  cases v <;> simp_all [isScalar, restoreVal, restoreFields, restoreStep, getA, setA]

/-- Witness for C9 at `k = "a"`, `v = 2`: the decoded map is `{'a': 2}`. -/
theorem restore_key_null_first_overwrites_witness :
    restoreVal (.map [("a", .null), ("a", .int 2)]) = .map [("a", .int 2)] :=
  restore_key_null_first_overwrites "a" (.int 2) rfl (by simp)

/-- Did a codec step fail with an exception? -/
def isFail {α : Type} : Except EncErr α → Bool
  | .error _ => true
  | .ok _ => false

theorem c7_aux : ∀ n : Nat,
    (∀ fs : List (String × Value), sizeOf fs ≤ n →
      isFail (replaceKeyValue fs) = (specBadNameFs fs || specNestedListFs fs)) ∧
    (∀ (k : String) (i : Nat) (xs : List Value), sizeOf xs ≤ n →
      isFail (expandList k i xs) = (specNestedListItems xs || specBadNameItems xs)) := by
  intro n
  induction n with
  | zero =>
    constructor
    · intro fs h; cases fs <;> simp_all <;> omega
    · intro k i xs h; cases xs <;> simp_all <;> omega
  | succ n ih =>
    obtain ⟨ih1, ih2⟩ := ih
    constructor
    · intro fs hsz
      match fs with
      | [] => simp [replaceKeyValue, specBadNameFs, specNestedListFs, isFail]
      | (k, v) :: rest =>
        have hszr : sizeOf rest ≤ n := by simp_arith at hsz; omega
        by_cases hk : DELIM ∈ k.data
        · cases v <;>
            simp [replaceKeyValue, hk, specBadNameFs, specBadName, isFail]
        · have h2 := ih1 rest hszr
          cases v with
          | map fs' =>
            have hszf : sizeOf fs' ≤ n := by simp_arith at hsz; omega
            have h1 := ih1 fs' hszf
            simp only [replaceKeyValue]
            rw [if_neg hk]
            simp only [specBadNameFs, specNestedListFs, specBadName, specNestedList]
            cases hfs : replaceKeyValue fs' <;> cases hr : replaceKeyValue rest <;>
              simp_all [Except.bind, Except.map, isFail, hk] <;> tauto
          | list xs =>
            have hszx : sizeOf xs ≤ n := by simp_arith at hsz; omega
            have h1 := ih2 k 0 xs hszx
            simp only [replaceKeyValue]
            rw [if_neg hk]
            simp only [specBadNameFs, specNestedListFs, specBadName, specNestedList]
            cases hfs : expandList k 0 xs <;> cases hr : replaceKeyValue rest <;>
              simp_all [Except.bind, Except.map, isFail, hk] <;> tauto
          | null =>
            simp only [replaceKeyValue]
            rw [if_neg hk]
            simp only [specBadNameFs, specNestedListFs, specBadName, specNestedList]
            cases hr : replaceKeyValue rest <;>
              simp_all [Except.bind, Except.map, isFail, hk]
          | bool b =>
            simp only [replaceKeyValue]
            rw [if_neg hk]
            simp only [specBadNameFs, specNestedListFs, specBadName, specNestedList]
            cases hr : replaceKeyValue rest <;>
              simp_all [Except.bind, Except.map, isFail, hk]
          | int m =>
            simp only [replaceKeyValue]
            rw [if_neg hk]
            simp only [specBadNameFs, specNestedListFs, specBadName, specNestedList]
            cases hr : replaceKeyValue rest <;>
              simp_all [Except.bind, Except.map, isFail, hk]
          | str s =>
            simp only [replaceKeyValue]
            rw [if_neg hk]
            simp only [specBadNameFs, specNestedListFs, specBadName, specNestedList]
            cases hr : replaceKeyValue rest <;>
              simp_all [Except.bind, Except.map, isFail, hk]
    · intro k i xs hsz
      match xs with
      | [] => simp [expandList, specNestedListItems, specBadNameItems, isFail]
      | x :: rest =>
        have hszr : sizeOf rest ≤ n := by simp_arith at hsz; omega
        cases x with
        | list ys => simp [expandList, specNestedListItems, isFail]
        | map fs' =>
          have hszf : sizeOf fs' ≤ n := by simp_arith at hsz; omega
          have h1 := ih1 fs' hszf
          have h2 := ih2 k (i + 1) rest hszr
          simp only [expandList, specNestedListItems, specBadNameItems,
                     specBadName, specNestedList]
          cases hfs : replaceKeyValue fs' <;> cases hr : expandList k (i + 1) rest <;>
            simp_all [Except.bind, Except.map, isFail] <;> tauto
        | null =>
          have h2 := ih2 k (i + 1) rest hszr
          simp only [expandList, specNestedListItems, specBadNameItems,
                     specBadName, specNestedList]
          cases hr : expandList k (i + 1) rest <;>
            simp_all [Except.bind, Except.map, isFail]
        | bool b =>
          have h2 := ih2 k (i + 1) rest hszr
          simp only [expandList, specNestedListItems, specBadNameItems,
                     specBadName, specNestedList]
          cases hr : expandList k (i + 1) rest <;>
            simp_all [Except.bind, Except.map, isFail]
        | int m =>
          have h2 := ih2 k (i + 1) rest hszr
          simp only [expandList, specNestedListItems, specBadNameItems,
                     specBadName, specNestedList]
          cases hr : expandList k (i + 1) rest <;>
            simp_all [Except.bind, Except.map, isFail]
        | str s =>
          have h2 := ih2 k (i + 1) rest hszr
          simp only [expandList, specNestedListItems, specBadNameItems,
                     specBadName, specNestedList]
          cases hr : expandList k (i + 1) rest <;>
            simp_all [Except.bind, Except.map, isFail]

/-- C7: Encode rejects with an error exactly the spec's three constraint
violations: a bare top-level list, a list directly nested inside another
list, and a field name containing the reserved delimiter `@`. -/
theorem dump_rejects_iff_violation (v : Value) :
    isFail (dumpStruct v) = specViolation v := by
  cases v with
  | list xs => simp [dumpStruct, specViolation, isFail]
  | map fs =>
    have h := (c7_aux (sizeOf fs)).1 fs le_rfl
    simp only [dumpStruct, specViolation, specBadName, specNestedList]
    cases hfs : replaceKeyValue fs <;> simp_all [isFail] <;> tauto
  | null => simp [dumpStruct, specViolation, specNestedList, specBadName, isFail]
  | bool b => simp [dumpStruct, specViolation, specNestedList, specBadName, isFail]
  | int m => simp [dumpStruct, specViolation, specNestedList, specBadName, isFail]
  | str s => simp [dumpStruct, specViolation, specNestedList, specBadName, isFail]

end QP

namespace YP

/-!
### The YPath query engine (`ypath.py`)

Python objects live on a heap; evaluation passes object references around and
`NodeGroup.collect` de-duplicates matches by `id()`, i.e. by reference.  The
embedding therefore models a Python heap explicitly: `Heap` is a list of
objects and a reference is an index into it.  Distinct indices are distinct
objects even when structurally equal (which is exactly what `id()`
distinguishes); the same index reached twice is the same object.  Indexing a
Python string yields a fresh one-character string, but CPython interns those,
so its identity is determined by the character — `RRef.strChar` models that.

Scalar predicate targets are what `MatchAttrPredicate.parse` can produce
(`load_prototxt` of a `\w+` token or a quoted string), so comparison
functions take a scalar right operand, exactly as at the call site.
-/

/-- A Python scalar in a decoded document. -/
inductive Scalar where
  | null : Scalar
  | bool : Bool → Scalar
  | int : Int → Scalar
  | str : String → Scalar
deriving Repr, DecidableEq

/-- A heap object: scalar, list of references, or insertion-ordered dict
mapping field names to references. -/
inductive Obj where
  | scalar : Scalar → Obj
  | list : List Nat → Obj
  | map : List (String × Nat) → Obj
deriving Repr, DecidableEq

/-- The Python heap: reference `r` denotes `h.get? r`. -/
abbrev Heap := List Obj

/-- A runtime reference: a heap object, or the interned one-character string
produced by indexing into a string. -/
inductive RRef where
  | heap : Nat → RRef
  | strChar : Char → RRef
deriving Repr, DecidableEq

/-- Dereference. -/
def deref (h : Heap) (x : RRef) : Option Obj :=
  match x with
  | .heap r => h.get? r
  | .strChar c => some (.scalar (.str (String.mk [c])))

/-- `node`: a field name plus optional `@index` (`ypath.py` lines 44-87). -/
structure NodeA where
  name : String
  index : Option Int
deriving Repr, DecidableEq

/-- The comparison operators of `MatchAttrPredicate.OPERATORS`; `!=` and `<>`
share one entry because they map to the same function. -/
inductive Op where
  | opEq : Op
  | opNe : Op
  | opGe : Op
  | opLe : Op
  | opIn : Op
  | opGt : Op
  | opLt : Op
deriving Repr, DecidableEq

/-- A parsed predicate: `HasAttrPredicate` or `MatchAttrPredicate`. -/
inductive Pred where
  | hasAttr : List NodeA → Bool → Pred
  | matchAttr : List NodeA → Op → Scalar → Pred
deriving Repr, DecidableEq

/-- `single_node`: a `Node` with its attached predicates
(`NodeWithPredicates`). -/
structure NodeWP where
  node : NodeA
  preds : List Pred
deriving Repr, DecidableEq

/-- Python sequence indexing with negative-index support; `none` is an
`IndexError`. -/
def pyIdx {α : Type} (xs : List α) (i : Int) : Option α :=
  let j := if i < 0 then i + xs.length else i
  if h : 0 ≤ j ∧ j < xs.length then xs.get? j.toNat else none

/-- First binding of a name in a dict. -/
def getF : List (String × Nat) → String → Option Nat
  | [], _ => none
  | (k, r) :: rest, key => if k = key then some r else getF rest key

/-- `Node.access` (lines 69-75): `ret = mapping[self.name]`, then
`ret = ret[self.index]` when an index is present.  `none` is the
`LookupError`/`TypeError` family that `collect` and the predicates catch:
name lookup on a non-dict, absent name, indexing a non-indexable object,
an out-of-range index, or an integer index into a dict. -/
def nodeAccess (h : Heap) (n : NodeA) (m : RRef) : Option RRef :=
  match deref h m with
  | some (.map fs) =>
    match getF fs n.name with
    | none => none
    | some r =>
      match n.index with
      | none => some (.heap r)
      | some i =>
        match deref h (.heap r) with
        | some (.list items) => (pyIdx items i).map .heap
        | some (.scalar (.str s)) => (pyIdx s.data i).map .strChar
        | _ => none
  | _ => none

/-- `Path.access` (lines 148-154) over the plain nodes of an attribute path. -/
def pathAccess (h : Heap) : List NodeA → RRef → Option RRef
  | [], m => some m
  | n :: rest, m => (nodeAccess h n m).bind (pathAccess h rest)

/-- Python `==` between a document value and a scalar literal
(`True == 1` holds; values of different shapes are unequal, never an error). -/
def scalarEq : Scalar → Scalar → Bool
  | .null, .null => true
  | .bool a, .bool b => a == b
  | .bool a, .int n => (if a then (1 : Int) else 0) == n
  | .int n, .bool a => n == (if a then (1 : Int) else 0)
  | .int a, .int b => a == b
  | .str a, .str b => a == b
  | _, _ => false

/-- `item == target` with a scalar target: a container never equals a
scalar. -/
def objEqScalar (h : Heap) (r : RRef) (t : Scalar) : Bool :=
  match deref h r with
  | some (.scalar s) => scalarEq s t
  | _ => false

/-- Python ordering between a scalar and a scalar literal: numbers (bool is
numeric) compare numerically, strings lexicographically by code point;
everything else — including `None` — raises `TypeError` (`none`). -/
def scalarCmp : Scalar → Scalar → Option Ordering
  | .bool a, .bool b => some (compare (if a then (1 : Int) else 0) (if b then (1 : Int) else 0))
  | .bool a, .int n => some (compare (if a then (1 : Int) else 0) n)
  | .int n, .bool a => some (compare n (if a then (1 : Int) else 0))
  | .int a, .int b => some (compare a b)
  | .str a, .str b =>
    some (if QP.charListLt a.data b.data then .lt
          else if QP.charListLt b.data a.data then .gt else .eq)
  | _, _ => none

/-- Ordering comparison of a document value against a scalar literal:
defined only when the value is an order-compatible scalar (`none` models the
`TypeError` that `<`, `>`, `<=`, `>=` raise on mixed operands). -/
def objCmpScalar (h : Heap) (r : RRef) (t : Scalar) : Option Ordering :=
  match deref h r with
  | some (.scalar s) => scalarCmp s t
  | _ => none

/-- Does the character list `hay` start with `needle`? -/
def startsWithCL : List Char → List Char → Bool
  | [], _ => true
  | _ :: _, [] => false
  | a :: as, b :: bs => a == b && startsWithCL as bs

/-- Is `needle` a contiguous infix of `hay`? -/
def infixCL (needle : List Char) : List Char → Bool
  | [] =>
    match needle with
    | [] => true
    | _ :: _ => false
  | c :: t => startsWithCL needle (c :: t) || infixCL needle t

/-- `b.data` is an infix of `a.data` (Python `b in a` for strings). -/
def strContainsSub (a b : String) : Bool := infixCL b.data a.data

/-- `~=`: `lambda a, b: b in a`.  Membership for a list (`==` against each
item), substring for a string (`TypeError` unless the literal is a string),
key membership for a dict (a non-string hashable key is simply absent),
`TypeError` (`none`) for scalars. -/
def objContains (h : Heap) (r : RRef) (t : Scalar) : Option Bool :=
  match deref h r with
  | some (.list items) => some (items.any fun c => objEqScalar h (.heap c) t)
  | some (.scalar (.str s)) =>
    match t with
    | .str ts => some (strContainsSub s ts)
    | _ => none
  | some (.map fs) =>
    match t with
    | .str ts => some (fs.any fun kv => kv.1 == ts)
    | _ => some false
  | _ => none

/-- Apply a comparison operator; `none` models a `TypeError` raised by the
operator function itself (inside `MatchAttrPredicate.match`'s `else` branch,
hence not caught). -/
def applyOp (h : Heap) (op : Op) (item : RRef) (t : Scalar) : Option Bool :=
  match op with
  | .opEq => some (objEqScalar h item t)
  | .opNe => some (!objEqScalar h item t)
  | .opGe => (objCmpScalar h item t).map fun o => o != .lt
  | .opLe => (objCmpScalar h item t).map fun o => o != .gt
  | .opGt => (objCmpScalar h item t).map fun o => o == .gt
  | .opLt => (objCmpScalar h item t).map fun o => o == .lt
  | .opIn => objContains h item t

/-- `Predicate.match` for both predicate kinds (lines 381-387 and 470-476):
an access miss makes `HasAttrPredicate` return `inversed` and
`MatchAttrPredicate` return `False`; a comparison `TypeError` (`none`)
propagates out of `MatchAttrPredicate.match`. -/
def predMatch (h : Heap) (p : Pred) (cand : RRef) : Option Bool :=
  match p with
  | .hasAttr path inv =>
    some (match pathAccess h path cand with
          | some _ => !inv
          | none => inv)
  | .matchAttr path op t =>
    match pathAccess h path cand with
    | none => some false
    | some item => applyOp h op item t

/-- Python `all(p.match(i) for p in preds)`: evaluated left to right,
short-circuiting on the first `False` (so a later predicate that would raise
is not evaluated), propagating a raise (`none`). -/
def allPreds (h : Heap) (preds : List Pred) (cand : RRef) : Option Bool :=
  match preds with
  | [] => some true
  | p :: rest =>
    match predMatch h p cand with
    | none => none
    | some false => some false
    | some true => allPreds h rest cand

/-- `items if isinstance(items, list) else [items]`. -/
def asItems (h : Heap) (r : RRef) : List RRef :=
  match deref h r with
  | some (.list items) => items.map .heap
  | _ => [r]

/-- The filtering loop of `NodeWithPredicates.collect` (line 245): keep the
items for which every predicate matches, in order; an uncaught `TypeError`
from a predicate propagates. -/
def filterPreds (h : Heap) (preds : List Pred) : List RRef → Option (List RRef)
  | [] => some []
  | i :: rest =>
    (allPreds h preds i).bind fun b =>
      (filterPreds h preds rest).map fun t => if b then i :: t else t

/-- `NodeWithPredicates.collect` (lines 237-246), `with_name=False`: an
access miss yields the empty list; otherwise the accessed value (a list's
items, or the single value) filtered by the predicate conjunction. -/
def nwpCollect (h : Heap) (n : NodeWP) (m : RRef) : Option (List RRef) :=
  match nodeAccess h n.node m with
  | none => some []
  | some r => filterPreds h n.preds (asItems h r)

/-- `NodeWithPredicates.collect` with `with_name=True`: each kept item is
wrapped in a fresh one-entry dict `{self.name: r}`, modelled as the pair. -/
def nwpCollectN (h : Heap) (n : NodeWP) (m : RRef) : Option (List (String × RRef)) :=
  (nwpCollect h n m).map (List.map fun r => (n.node.name, r))

/-- Update-or-append on an association list: Python dict assignment
(first-insertion position, last value wins). -/
def dictUpd {κ ν : Type} [BEq κ] : List (κ × ν) → κ → ν → List (κ × ν)
  | [], k, v => [(k, v)]
  | (k', v') :: rest, k, v =>
    if k' == k then (k', v) :: rest else (k', v') :: dictUpd rest k v

/-- `{key(i): i for i in items}.values()`: the dict-comprehension
de-duplication of `NodeGroup.collect` (lines 313-317). -/
def dedupBy {α κ : Type} [BEq κ] (key : α → κ) (items : List α) : List α :=
  (items.foldl (fun acc i => dictUpd acc (key i) i) []).map Prod.snd

/-- `node_group` / `ypath` ASTs: a `NodeGroup` is a list of alternatives,
each a single predicated node or a nested `YPath`; a `YPath` is a non-empty
list of `NodeGroup`s (the parser guarantees non-emptiness). -/
inductive GAlt where
  | single : NodeWP → GAlt
  | sub : List (List GAlt) → GAlt
deriving Repr

abbrev NodeGroup := List GAlt

abbrev YPathQ := List NodeGroup

mutual
/-- `NodeGroup.collect` (lines 308-317), `with_name=False`: concatenate the
alternatives' results, then de-duplicate by `id(i)` — by reference. -/
def ngCollect (h : Heap) (alts : NodeGroup) (m : RRef) : Option (List RRef) :=
  (altsCollect h alts m).map (dedupBy fun r => r)

def altsCollect (h : Heap) (alts : List GAlt) (m : RRef) : Option (List RRef) :=
  match alts with
  | [] => some []
  | .single n :: rest =>
    (nwpCollect h n m).bind fun l => (altsCollect h rest m).map (l ++ ·)
  | .sub p :: rest =>
    (ypCollect h p m).bind fun l => (altsCollect h rest m).map (l ++ ·)

/-- `Path.collect` for `YPath` (lines 156-167), `with_name=False`: left fold
of group collection; `none` on the empty path models the `IndexError` of
`self.nodes[-1]` (unreachable from the parser). -/
def ypCollect (h : Heap) (p : YPathQ) (m : RRef) : Option (List RRef) :=
  match p with
  | [] => none
  | [g] => ngCollect h g m
  | g :: g2 :: rest =>
    (ngCollect h g m).bind fun items => ypCollectList h (g2 :: rest) items

def ypCollectList (h : Heap) (p : YPathQ) (items : List RRef) : Option (List RRef) :=
  match items with
  | [] => some []
  | i :: is =>
    (ypCollect h p i).bind fun l => (ypCollectList h p is).map (l ++ ·)
end

mutual
/-- `NodeGroup.collect` with `with_name=True`: alternatives produce
`{name: value}` wrappers; de-duplication keys on
`id(next(iter(i.values())))` — the reference of the wrapped value, not the
wrapper. -/
def ngCollectN (h : Heap) (alts : NodeGroup) (m : RRef) :
    Option (List (String × RRef)) :=
  (altsCollectN h alts m).map (dedupBy fun r => r.2)

def altsCollectN (h : Heap) (alts : List GAlt) (m : RRef) :
    Option (List (String × RRef)) :=
  match alts with
  | [] => some []
  | .single n :: rest =>
    (nwpCollectN h n m).bind fun l => (altsCollectN h rest m).map (l ++ ·)
  | .sub p :: rest =>
    (ypCollectN h p m).bind fun l => (altsCollectN h rest m).map (l ++ ·)

/-- `YPath.collect` with `with_name=True`: intermediate nodes collect
unwrapped, the terminal node group wraps. -/
def ypCollectN (h : Heap) (p : YPathQ) (m : RRef) :
    Option (List (String × RRef)) :=
  match p with
  | [] => none
  | [g] => ngCollectN h g m
  | g :: g2 :: rest =>
    (ngCollect h g m).bind fun items => ypCollectListN h (g2 :: rest) items

def ypCollectListN (h : Heap) (p : YPathQ) (items : List RRef) :
    Option (List (String × RRef)) :=
  match items with
  | [] => some []
  | i :: is =>
    (ypCollectN h p i).bind fun l => (ypCollectListN h p is).map (l ++ ·)
end

/-! ### Claim C2: evaluation never raises -/

/-- The comparison operators whose `MatchAttrPredicate.OPERATORS` function is
total: `==`, `!=` and `<>` (Python `==`/`!=` never raise on these values). -/
def totalOp : Op → Bool
  | .opEq => true
  | .opNe => true
  | _ => false

def predTotal : Pred → Bool
  | .hasAttr _ _ => true
  | .matchAttr _ op _ => totalOp op

mutual
/-- All predicates in the query use total operators, and every nested
sub-path is non-empty (as the parser guarantees). -/
def altsTotal : List GAlt → Bool
  | [] => true
  | .single n :: rest => n.preds.all predTotal && altsTotal rest
  | .sub p :: rest => ypTotal p && altsTotal rest

def ypTotal : List (List GAlt) → Bool
  | [] => false
  | [g] => altsTotal g
  | g :: g2 :: rest => altsTotal g && ypTotal (g2 :: rest)
end

theorem predMatch_total {p : Pred} (hp : predTotal p = true) (h : Heap) (c : RRef) :
    (predMatch h p c).isSome = true := by
  cases p with
  | hasAttr path inv => simp [predMatch]
  | matchAttr path op t =>
    cases hacc : pathAccess h path c with
    | none => simp [predMatch, hacc]
    | some item =>
      cases op <;> simp_all [predTotal, totalOp, predMatch, applyOp]

theorem allPreds_total {preds : List Pred} (hp : preds.all predTotal = true)
    (h : Heap) (c : RRef) : (allPreds h preds c).isSome = true := by
  induction preds with
  | nil => simp [allPreds]
  | cons p rest ih =>
    simp only [List.all_cons, Bool.and_eq_true] at hp
    obtain ⟨b, hb⟩ := Option.isSome_iff_exists.mp (predMatch_total hp.1 h c)
    cases b <;> simp [allPreds, hb, ih hp.2]

theorem filterPreds_total {preds : List Pred} (hp : preds.all predTotal = true)
    (h : Heap) (items : List RRef) : (filterPreds h preds items).isSome = true := by
  induction items with
  | nil => simp [filterPreds]
  | cons i rest ih =>
    obtain ⟨b, hb⟩ := Option.isSome_iff_exists.mp (allPreds_total hp h i)
    obtain ⟨t, ht⟩ := Option.isSome_iff_exists.mp ih
    simp [filterPreds, hb, ht]

theorem nwpCollect_total {n : NodeWP} (hp : n.preds.all predTotal = true)
    (h : Heap) (m : RRef) : (nwpCollect h n m).isSome = true := by
  cases hacc : nodeAccess h n.node m with
  | none => simp [nwpCollect, hacc]
  | some r => simp [nwpCollect, hacc, filterPreds_total hp]

theorem nwpCollectN_total {n : NodeWP} (hp : n.preds.all predTotal = true)
    (h : Heap) (m : RRef) : (nwpCollectN h n m).isSome = true := by
  obtain ⟨l, hl⟩ := Option.isSome_iff_exists.mp (nwpCollect_total hp h m)
  simp [nwpCollectN, hl]

theorem ypCollectList_total {h : Heap} {p : YPathQ}
    (hpt : ∀ i : RRef, (ypCollect h p i).isSome = true) :
    ∀ items : List RRef, (ypCollectList h p items).isSome = true := by
  intro items
  induction items with
  | nil => simp [ypCollectList]
  | cons i is ih =>
    obtain ⟨l, hl⟩ := Option.isSome_iff_exists.mp (hpt i)
    obtain ⟨t, ht⟩ := Option.isSome_iff_exists.mp ih
    simp [ypCollectList, hl, ht]

theorem ypCollectListN_total {h : Heap} {p : YPathQ}
    (hpt : ∀ i : RRef, (ypCollectN h p i).isSome = true) :
    ∀ items : List RRef, (ypCollectListN h p items).isSome = true := by
  intro items
  induction items with
  | nil => simp [ypCollectListN]
  | cons i is ih =>
    obtain ⟨l, hl⟩ := Option.isSome_iff_exists.mp (hpt i)
    obtain ⟨t, ht⟩ := Option.isSome_iff_exists.mp ih
    simp [ypCollectListN, hl, ht]

theorem collect_total_aux : ∀ n : Nat,
    (∀ alts : List GAlt, sizeOf alts ≤ n → altsTotal alts = true → ∀ (h : Heap) (m : RRef),
      (altsCollect h alts m).isSome = true ∧ (altsCollectN h alts m).isSome = true) ∧
    (∀ p : YPathQ, sizeOf p ≤ n → ypTotal p = true → ∀ (h : Heap) (m : RRef),
      (ypCollect h p m).isSome = true ∧ (ypCollectN h p m).isSome = true) := by
  intro n
  induction n with
  | zero =>
    constructor
    · intro alts h; cases alts <;> simp_all <;> omega
    · intro p h; cases p <;> simp_all <;> omega
  | succ n ih =>
    obtain ⟨ih1, ih2⟩ := ih
    constructor
    · intro alts hsz htot h m
      match alts with
      | [] => simp [altsCollect, altsCollectN]
      | .single nd :: rest =>
        simp only [altsTotal, Bool.and_eq_true] at htot
        have hszr : sizeOf rest ≤ n := by simp_arith at hsz; omega
        obtain ⟨hr1, hr2⟩ := ih1 rest hszr htot.2 h m
        obtain ⟨l1, hl1⟩ := Option.isSome_iff_exists.mp (nwpCollect_total htot.1 h m)
        obtain ⟨l2, hl2⟩ := Option.isSome_iff_exists.mp (nwpCollectN_total htot.1 h m)
        obtain ⟨t1, ht1⟩ := Option.isSome_iff_exists.mp hr1
        obtain ⟨t2, ht2⟩ := Option.isSome_iff_exists.mp hr2
        constructor
        · simp [altsCollect, hl1, ht1]
        · simp [altsCollectN, hl2, ht2]
      | .sub p :: rest =>
        simp only [altsTotal, Bool.and_eq_true] at htot
        have hszr : sizeOf rest ≤ n := by simp_arith at hsz; omega
        have hszp : sizeOf p ≤ n := by simp_arith at hsz; omega
        obtain ⟨hr1, hr2⟩ := ih1 rest hszr htot.2 h m
        obtain ⟨hp1, hp2⟩ := ih2 p hszp htot.1 h m
        obtain ⟨l1, hl1⟩ := Option.isSome_iff_exists.mp hp1
        obtain ⟨l2, hl2⟩ := Option.isSome_iff_exists.mp hp2
        obtain ⟨t1, ht1⟩ := Option.isSome_iff_exists.mp hr1
        obtain ⟨t2, ht2⟩ := Option.isSome_iff_exists.mp hr2
        constructor
        · simp [altsCollect, hl1, ht1]
        · simp [altsCollectN, hl2, ht2]
    · intro p hsz htot h m
      match p with
      | [] => simp [ypTotal] at htot
      | [g] =>
        have hszg : sizeOf g ≤ n := by simp_arith at hsz; omega
        have htg : altsTotal g = true := by simpa [ypTotal] using htot
        obtain ⟨h1, h2⟩ := ih1 g hszg htg h m
        obtain ⟨l1, hl1⟩ := Option.isSome_iff_exists.mp h1
        obtain ⟨l2, hl2⟩ := Option.isSome_iff_exists.mp h2
        constructor
        · simp [ypCollect, ngCollect, hl1]
        · simp [ypCollectN, ngCollectN, hl2]
      | g :: g2 :: rest =>
        simp only [ypTotal, Bool.and_eq_true] at htot
        have hszg : sizeOf g ≤ n := by simp_arith at hsz; omega
        have hszr : sizeOf (g2 :: rest) ≤ n := by simp_arith at hsz ⊢; omega
        obtain ⟨hg1, _⟩ := ih1 g hszg htot.1 h m
        obtain ⟨items, hitems⟩ := Option.isSome_iff_exists.mp hg1
        have hpt1 : ∀ i : RRef, (ypCollect h (g2 :: rest) i).isSome = true :=
          fun i => (ih2 (g2 :: rest) hszr htot.2 h i).1
        have hpt2 : ∀ i : RRef, (ypCollectN h (g2 :: rest) i).isSome = true :=
          fun i => (ih2 (g2 :: rest) hszr htot.2 h i).2
        obtain ⟨t1, ht1⟩ :=
          Option.isSome_iff_exists.mp (ypCollectList_total hpt1 (dedupBy (fun r => r) items))
        obtain ⟨t2, ht2⟩ :=
          Option.isSome_iff_exists.mp (ypCollectListN_total hpt2 (dedupBy (fun r => r) items))
        constructor
        · simp [ypCollect, ngCollect, hitems, ht1]
        · simp [ypCollectN, ngCollect, hitems, ht2]

/-- C2 as stated is false: evaluating the parsed query `a(x<1)` against the
decoded document `{'a': {'x': "s"}}` — a type mismatch between the resolved
text value and the integer literal — raises an uncaught `TypeError` inside
the comparison (modelled as `none`) instead of reducing the branch to empty.
The heap is: ref 0 = `"s"`, ref 1 = `{'x': ref 0}`, ref 2 = `{'a': ref 1}`. -/
theorem collect_raises_counterexample :
    ypCollect [.scalar (.str "s"), .map [("x", 0)], .map [("a", 1)]]
      [[GAlt.single ⟨⟨"a", none⟩, [.matchAttr [⟨"x", none⟩] .opLt (.int 1)]⟩]]
      (.heap 2) = none := by
  simp [ypCollect, ngCollect, altsCollect, nwpCollect, nodeAccess, deref, getF,
        asItems, filterPreds, allPreds, predMatch, pathAccess, applyOp,
        objCmpScalar, scalarCmp]

/-- C2, amended: evaluation misses during attribute access (absent field,
non-subscriptable value, out-of-range index, integer key into a dict) never
raise — `collect` turns them into the empty result and `match` into
`False`/`inversed` — but a Compare predicate whose resolved value is
type-incompatible with its literal under an ordering or containment operator
raises an uncaught `TypeError`.  For every parsed query whose Compare
predicates all use the total operators `==`, `!=`, `<>`, evaluation never
raises, in either collection mode. -/
theorem collect_never_raises (h : Heap) (p : YPathQ) (m : RRef)
    (htot : ypTotal p = true) :
    (ypCollect h p m).isSome = true ∧ (ypCollectN h p m).isSome = true ∧
    (∀ n : NodeWP, nodeAccess h n.node m = none → nwpCollect h n m = some []) :=
  ⟨((collect_total_aux (sizeOf p)).2 p le_rfl htot h m).1,
   ((collect_total_aux (sizeOf p)).2 p le_rfl htot h m).2,
   fun n hmiss => by simp [nwpCollect, hmiss]⟩

/-- Witness for the amended C2: the query `a(x==1)` (one `==` predicate)
evaluated against the document above returns a value — here the empty match
set, since `"s" == 1` is simply `False`. -/
theorem collect_never_raises_witness :
    (ypCollect [.scalar (.str "s"), .map [("x", 0)], .map [("a", 1)]]
      [[GAlt.single ⟨⟨"a", none⟩, [.matchAttr [⟨"x", none⟩] .opEq (.int 1)]⟩]]
      (.heap 2)).isSome = true := by
  have htot : ypTotal
      [[GAlt.single ⟨⟨"a", none⟩, [.matchAttr [⟨"x", none⟩] .opEq (.int 1)]⟩]] = true := by
    simp [ypTotal, altsTotal, predTotal, totalOp]
  exact (collect_never_raises _ _ (.heap 2) htot).1

/-! ### Claims C6 and C10: union de-duplication -/

/-- Boolean membership of a reference in a list of references. -/
def memR (x : RRef) : List RRef → Bool
  | [] => false
  | y :: rest => x == y || memR x rest

/-- Spec-side description of C6's de-duplication: keep the first occurrence
of each reference, preserving order (`seen` holds the references already
emitted). -/
def keepFirst (seen : List RRef) : List RRef → List RRef
  | [] => []
  | i :: rest =>
    if memR i seen then keepFirst seen rest
    else i :: keepFirst (i :: seen) rest

theorem memR_append (x : RRef) (l : List RRef) (i : RRef) :
    memR x (l ++ [i]) = (memR x l || x == i) := by
  induction l with
  | nil => simp [memR]
  | cons y rest ih => simp [memR, ih, Bool.or_assoc]

theorem keepFirst_congr {s1 s2 : List RRef}
    (h : ∀ x, memR x s1 = memR x s2) :
    ∀ l, keepFirst s1 l = keepFirst s2 l := by
  intro l
  induction l generalizing s1 s2 with
  | nil => rfl
  | cons i rest ih =>
    simp only [keepFirst, h i]
    by_cases hc : memR i s2 = true
    · simp [hc, ih h]
    · have hc' : memR i s2 = false := by simpa using hc
      have h' : ∀ x, memR x (i :: s1) = memR x (i :: s2) := fun x => by
        simp [memR, h x]
      simp [hc', ih h']

theorem dictUpd_self (l : List RRef) (i : RRef) :
    dictUpd (l.map fun r => (r, r)) i i =
      (if memR i l then l else l ++ [i]).map (fun r => (r, r)) := by
  induction l with
  | nil => simp [dictUpd, memR]
  | cons r l' ih =>
    by_cases h : r = i
    · subst h
      simp [dictUpd, memR]
    · have hbe : (r == i) = false := by simpa using h
      have hbe' : (i == r) = false := by simpa using Ne.symm h
      simp only [List.map_cons, dictUpd, hbe, if_false, ih, memR, hbe', Bool.false_or]
      by_cases hc : memR i l' = true <;> simp [hc]

theorem dedup_id_aux (items : List RRef) :
    ∀ l : List RRef,
      ((items.foldl (fun acc i => dictUpd acc i i) (l.map fun r => (r, r))).map
        Prod.snd) = l ++ keepFirst l items := by
  induction items with
  | nil =>
    intro l
    have hmap : ∀ l' : List RRef, (l'.map fun r => (r, r)).map Prod.snd = l' := by
      intro l'; induction l' <;> simp_all
    simp [keepFirst, hmap]
  | cons i rest ih =>
    intro l
    simp only [List.foldl_cons, dictUpd_self]
    by_cases hc : memR i l = true
    · simp [hc, ih l, keepFirst]
    · have hc' : memR i l = false := by simpa using hc
      have h' : ∀ x, memR x (l ++ [i]) = memR x (i :: l) := fun x => by
        simp [memR_append, memR, Bool.or_comm]
      simp only [hc', Bool.false_eq_true, if_false, ih (l ++ [i]), keepFirst]
      rw [@keepFirst_congr (l ++ [i]) (i :: l) h' rest]
      simp

/-- The dict-comprehension `{id(i): i for i in items}.values()` with the
identity key equals first-occurrence de-duplication. -/
theorem dedupBy_id_keepFirst (items : List RRef) :
    dedupBy (fun r => r) items = keepFirst [] items := by
  simpa [dedupBy] using dedup_id_aux items []

/-- C6: `NodeGroup.collect` (default mode) returns the union of `collect`
over every alternative de-duplicated by identity of the returned value,
keeping first occurrences in order.  In particular the group `{a,a}`
evaluated against `{'a': 1}` yields exactly one match (both alternatives
return the same object), while `{a,b}` against `{'a': {}, 'b': {}}` keeps
both structurally equal but distinct objects. -/
theorem group_dedup_by_identity :
    (∀ (h : Heap) (alts : NodeGroup) (m : RRef) (items : List RRef),
      altsCollect h alts m = some items →
      ngCollect h alts m = some (keepFirst [] items)) ∧
    (ngCollect [.scalar (.int 1), .map [("a", 0)]]
       [GAlt.sub [[GAlt.single ⟨⟨"a", none⟩, []⟩]],
        GAlt.sub [[GAlt.single ⟨⟨"a", none⟩, []⟩]]] (.heap 1) = some [.heap 0]) ∧
    (ngCollect [.map [], .map [], .map [("a", 0), ("b", 1)]]
       [GAlt.sub [[GAlt.single ⟨⟨"a", none⟩, []⟩]],
        GAlt.sub [[GAlt.single ⟨⟨"b", none⟩, []⟩]]] (.heap 2) =
      some [.heap 0, .heap 1]) := by
  refine ⟨?_, ?_, ?_⟩
  · intro h alts m items hitems
    simp [ngCollect, hitems, dedupBy_id_keepFirst]
  · simp [ngCollect, altsCollect, ypCollect, ypCollectList, nwpCollect, nodeAccess,
          deref, getF, asItems, filterPreds, allPreds, dedupBy, dictUpd, keepFirst]
  · simp [ngCollect, altsCollect, ypCollect, ypCollectList, nwpCollect, nodeAccess,
          deref, getF, asItems, filterPreds, allPreds, dedupBy, dictUpd, keepFirst]

/-- Witness for C6's universal part at the `{a,a}` example: the
concatenated alternatives yield the same reference twice, and the group
result keeps its first occurrence only. -/
theorem group_dedup_by_identity_witness :
    ngCollect [.scalar (.int 1), .map [("a", 0)]]
      [GAlt.sub [[GAlt.single ⟨⟨"a", none⟩, []⟩]],
       GAlt.sub [[GAlt.single ⟨⟨"a", none⟩, []⟩]]] (.heap 1) =
      some (keepFirst [] [.heap 0, .heap 0]) :=
  group_dedup_by_identity.1 _ _ _ [.heap 0, .heap 0]
    (by simp [altsCollect, ngCollect, ypCollect, ypCollectList, nwpCollect, nodeAccess,
              deref, getF, asItems, filterPreds, allPreds, dedupBy, dictUpd, memR])

/-- C10 is false as stated: with name-wrapping requested and two
alternatives `a`, `b` resolving to the identical object (`{'a': r, 'b': r}`
— the heap has ref 0 = `1`, ref 1 = the aliased dict), de-duplication keys
on the inner reference and Python dict assignment keeps the LAST value at
the first position: the result is the second alternative's wrapper
`{'b': 1}`, not the first's. -/
theorem named_dedup_counterexample :
    ngCollectN [.scalar (.int 1), .map [("a", 0), ("b", 0)]]
      [GAlt.sub [[GAlt.single ⟨⟨"a", none⟩, []⟩]],
       GAlt.sub [[GAlt.single ⟨⟨"b", none⟩, []⟩]]] (.heap 1) =
      some [("b", .heap 0)] := by
  simp [ngCollectN, altsCollectN, ypCollectN, ypCollectListN, nwpCollectN, nwpCollect,
        nodeAccess, deref, getF, asItems, filterPreds, allPreds, dedupBy, dictUpd]

/-- C10, amended: named-mode de-duplication keys on the identity of the
inner wrapped value, and for two wrappers of the identical object the dict
comprehension keeps the position of the first but the value of the LAST —
the second alternative's `{name: value}` wrapper survives and the first
name is dropped. -/
theorem named_dedup_keeps_last (h : Heap) (alts : NodeGroup) (m : RRef)
    (w1 w2 : String × RRef) (hw : altsCollectN h alts m = some [w1, w2])
    (heq : w1.2 = w2.2) : ngCollectN h alts m = some [w2] := by
  obtain ⟨n1, r1⟩ := w1
  obtain ⟨n2, r2⟩ := w2
  simp only at heq
  subst heq
  simp [ngCollectN, hw, dedupBy, dictUpd]

/-- Witness for the amended C10 at the aliased heap above. -/
theorem named_dedup_keeps_last_witness :
    ngCollectN [.scalar (.int 1), .map [("a", 0), ("b", 0)]]
      [GAlt.sub [[GAlt.single ⟨⟨"a", none⟩, []⟩]],
       GAlt.sub [[GAlt.single ⟨⟨"b", none⟩, []⟩]]] (.heap 1) =
      some [("b", .heap 0)] :=
  named_dedup_keeps_last _ _ _ ("a", .heap 0) ("b", .heap 0)
    (by simp [altsCollectN, ngCollectN, ypCollectN, ypCollectListN, nwpCollectN,
              nwpCollect, nodeAccess, deref, getF, asItems, filterPreds, allPreds,
              dedupBy, dictUpd]) rfl

/-! ### The YPath parsers (`ypath.py`)

Parsing loops are modelled with an explicit fuel argument seeded with
`text.length + 1`; every loop iteration of the source consumes at least one
character, so the fuel never runs out on the seeded calls. -/

/-- Python `str.isspace` / `\s` for the ASCII whitespace Python strips. -/
def pyIsSpace (c : Char) : Bool :=
  c = ' ' || c = '\t' || c = '\n' || c = '\r' || c = '\x0b' || c = '\x0c'

def lstripSpace (cs : List Char) : List Char := cs.dropWhile pyIsSpace

/-- The grammar rule a syntax error is attributed to (the `token_type`
class object of `YPathSyntaxError`). -/
inductive Rule where
  | node : Rule
  | path : Rule
  | nodeWithPredicates : Rule
  | nodeGroup : Rule
  | predicate : Rule
  | matchAttrPredicate : Rule
  | hasAttrPredicate : Rule
deriving Repr, DecidableEq

/-- `YPathSyntaxError` (lines 16-41): the failing rule, the offending text,
and the optional problem description and character offset. -/
structure YPathSyntaxError where
  tokenType : Rule
  text : String
  problem : Option String
  position : Option Nat
deriving Repr, DecidableEq

def digitsToNat (ds : List Char) : Nat :=
  ds.foldl (fun a c => a * 10 + (c.toNat - 48)) 0

/-- `[a-zA-Z]\w*` from the start of the input. -/
def matchName : List Char → Option (List Char × List Char)
  | [] => none
  | c :: rest =>
    if c.isAlpha then
      let p := rest.span QP.isWordChar
      some (c :: p.1, p.2)
    else none

/-- The optional `(?:\s*@\s*([\-\+]?\d+))?` group. -/
def matchIdx (cs : List Char) : Option (Int × List Char) :=
  match cs.dropWhile pyIsSpace with
  | '\x40' :: r2 =>
    let r3 := r2.dropWhile pyIsSpace
    let sr : Int × List Char :=
      match r3 with
      | '-' :: t => (-1, t)
      | '+' :: t => (1, t)
      | t => (1, t)
    let p := sr.2.span Char.isDigit
    if p.1.isEmpty then none
    else some (sr.1 * (digitsToNat p.1 : Int), p.2)
  | _ => none

/-- `Node.PATTERN = ([a-zA-Z]\w*)(?:\s*@\s*([\-\+]?\d+))?` matched
greedily from the start; returns the node and the unconsumed suffix. -/
def nodeRegex (cs : List Char) : Option (NodeA × List Char) :=
  (matchName cs).map fun p =>
    match matchIdx p.2 with
    | some (i, r2) => (⟨String.mk p.1, some i⟩, r2)
    | none => (⟨String.mk p.1, none⟩, p.2)

/-- `Node.parse` (lines 57-67): regex `fullmatch` or `match`; on failure
raises `YPathSyntaxError(Node, text)` — with NO problem and NO position. -/
def nodeParse (text : String) (full : Bool) : Except YPathSyntaxError (NodeA × Nat) :=
  match nodeRegex text.data with
  | none => .error ⟨.node, text, none, none⟩
  | some (n, rest) =>
    if full && !rest.isEmpty then .error ⟨.node, text, none, none⟩
    else .ok (n, text.length - rest.length)

/-- The loop of `Path.parse` (lines 112-146); returns the pending exception,
the parsed nodes, and the unconsumed suffix. -/
def pathLoop (sep : Char) (text : String) :
    Nat → List Char → List NodeA →
    Option YPathSyntaxError × List NodeA × List Char
  | 0, text_, nodes => (none, nodes, text_)
  | fuel + 1, text_, nodes =>
    match text_ with
    | [] => (none, nodes, [])
    | c :: _ =>
      if nodes ≠ [] ∧ c ≠ sep then
        (some ⟨.path, text, some "seperator expected", some (text.length - text_.length)⟩,
         nodes, text_)
      else
        let text__ := lstripSpace (text_.dropWhile (· == sep))
        match nodeRegex text__ with
        | none => (some ⟨.node, String.mk text__, none, none⟩, nodes, text_)
        | some (n, rest) => pathLoop sep text fuel (lstripSpace rest) (nodes ++ [n])

/-- `Path.parse`: parse `seperator`-joined nodes (first separator may be
omitted); raises `node expected`, the pending node error, or
`unexpected token`, each with a position. -/
def pathParse (sep : Char) (text : String) (full : Bool) :
    Except YPathSyntaxError (List NodeA × Nat) :=
  match pathLoop sep text (text.length + 1) text.data [] with
  | (exc, nodes, text_) =>
    if nodes.isEmpty then
      .error ⟨.path, text, some "node expected", some (text.length - text_.length)⟩
    else if full && !text_.isEmpty then
      match exc with
      | none => .error ⟨.path, text, some "unexpected token",
                        some (text.length - text_.length)⟩
      | some e => .error e
    else .ok (nodes, text.length - text_.length)

/-- `MatchAttrPredicate.OPERATORS`, in source order (two-character operators
first); `!=` and `<>` map to the same function. -/
def OPERATORS : List (String × Op) :=
  [("==", .opEq), ("!=", .opNe), ("<>", .opNe), (">=", .opGe), ("<=", .opLe),
   ("~=", .opIn), (">", .opGt), ("<", .opLt)]

def findOp : List (String × Op) → List Char → Option (Op × List Char)
  | [], _ => none
  | (s, op) :: rest, cs =>
    if startsWithCL s.data cs then some (op, cs.drop s.data.length)
    else findOp rest cs

/-- Modelled from the spec: the external generic parser's resolution of a
single scalar token (`load_prototxt` on text with no `name:`/`name{`
pattern) — quoted text keeps its content, digit runs are integers, the
YAML 1.1 boolean and null words resolve accordingly, anything else is text.
(`MatchAttrPredicate` targets are `\w+` tokens or quoted strings, so no
nested document can appear here.) -/
def loadScalar (s : String) : Scalar :=
  match s.data with
  | [] => .null
  | c :: rest =>
    if c = '\x27' || c = '\x22' then .str (String.mk rest.dropLast)
    else if (c :: rest).all Char.isDigit then .int (digitsToNat (c :: rest))
    else if s = "true" || s = "True" || s = "TRUE" || s = "yes" || s = "Yes" ||
            s = "YES" || s = "on" || s = "On" || s = "ON" then .bool true
    else if s = "false" || s = "False" || s = "FALSE" || s = "no" || s = "No" ||
            s = "NO" || s = "off" || s = "Off" || s = "OFF" then .bool false
    else if s = "null" || s = "Null" || s = "NULL" || s = "~" then .null
    else .str s

/-- The quoted-target scan of `MatchAttrPredicate.parse` (lines 438-457):
given the characters after the opening quote, the number of characters up to
and including the closing quote, honouring backslash escapes; `none` when
the quote never closes. -/
def quotedLen (q : Char) : Bool → List Char → Option Nat
  | _, [] => none
  | true, _ :: rest => (quotedLen q false rest).map (· + 1)
  | false, c :: rest =>
    if c = '\\' then (quotedLen q true rest).map (· + 1)
    else if c = q then some 1
    else (quotedLen q false rest).map (· + 1)

/-- `MatchAttrPredicate.parse` (lines 417-468): attribute path, operator
from the table, then a quoted or `\w+` target handed to the scalar loader.
(The `full` flag is accepted but never used by the source body.) -/
def matchAttrParse (text : String) (full : Bool) :
    Except YPathSyntaxError (Pred × Nat) :=
  match pathParse '.' text false with
  | .error e => .error e
  | .ok (path, pos) =>
    let t1 := lstripSpace (text.data.drop pos)
    if t1.isEmpty then
      .error ⟨.matchAttrPredicate, text, some "operator expected", some text.length⟩
    else
      match findOp OPERATORS t1 with
      | none => .error ⟨.matchAttrPredicate, text, some "invalid operator",
                        some (text.length - t1.length)⟩
      | some (op, r2) =>
        let t2 := lstripSpace r2
        match t2 with
        | [] => .error ⟨.matchAttrPredicate, text, some "target expected",
                        some text.length⟩
        | c :: t3 =>
          if c = '\x27' || c = '\x22' then
            match quotedLen c false t3 with
            | none => .error ⟨.matchAttrPredicate, text, some "trailing target",
                              some text.length⟩
            | some m =>
              let target := String.mk (t2.take (m + 1))
              .ok (.matchAttr path op (loadScalar target),
                   text.length - (t2.drop (m + 1)).length)
          else
            let p := t2.span QP.isWordChar
            if p.1.isEmpty then
              .error ⟨.matchAttrPredicate, text, some "invalid target",
                      some (text.length - t2.length)⟩
            else
              .ok (.matchAttr path op (loadScalar (String.mk p.1)),
                   text.length - p.2.length)

/-- `HasAttrPredicate.parse` (lines 369-379): optional `!`, then an
attribute path parsed with the caller's `full` flag. -/
def hasAttrParse (text : String) (full : Bool) :
    Except YPathSyntaxError (Pred × Nat) :=
  if text.isEmpty then .error ⟨.hasAttrPredicate, text, none, none⟩
  else
    let it : Bool × List Char :=
      match text.data with
      | '!' :: t => (true, lstripSpace t)
      | t => (false, t)
    match pathParse '.' (String.mk it.2) full with
    | .error e => .error e
    | .ok (path, pos) => .ok (.hasAttr path it.1, (text.length - it.2.length) + pos)

/-- `Predicate.parse` (lines 337-350): try each registered subclass in order
(`MatchAttrPredicate`, then `HasAttrPredicate`); if none parses, raise the
aggregated `YPathSyntaxError(Predicate, text)` — without a position. -/
def predicateParse (text : String) (full : Bool) :
    Except YPathSyntaxError (Pred × Nat) :=
  match matchAttrParse text full with
  | .ok r => .ok r
  | .error _ =>
    match hasAttrParse text full with
    | .ok r => .ok r
    | .error _ => .error ⟨.predicate, text, none, none⟩

/-- The predicate loop of `NodeWithPredicates.parse` (lines 186-229). -/
def nwpLoop (text : String) (full : Bool) :
    Nat → List Char → List Pred → Bool →
    Except YPathSyntaxError (List Pred × List Char)
  | 0, text_, preds, _ => .ok (preds, text_)
  | fuel + 1, text_, preds, started =>
    if started then
      match text_ with
      | [] => .error ⟨.nodeWithPredicates, text, some "trailing predicates",
                      some text.length⟩
      | c :: t =>
        if c = ')' then
          if full && !t.isEmpty then
            .error ⟨.nodeWithPredicates, text, some "unexpected token",
                    some (text.length - t.length)⟩
          else .ok (preds, t)
        else if c = '|' then
          let t2 := lstripSpace t
          match predicateParse (String.mk t2) false with
          | .error e => .error e
          | .ok (p, pos) =>
            nwpLoop text full fuel (lstripSpace (t2.drop pos)) (preds ++ [p]) true
        else
          .error ⟨.nodeWithPredicates, text, some "unexpected token",
                  some (text.length - text_.length)⟩
    else
      match text_ with
      | [] => .ok (preds, [])
      | c :: t =>
        if c = '(' then
          let t2 := lstripSpace t
          match predicateParse (String.mk t2) false with
          | .error e => .error e
          | .ok (p, pos) =>
            nwpLoop text full fuel (lstripSpace (t2.drop pos)) (preds ++ [p]) true
        else if full then
          .error ⟨.nodeWithPredicates, text, some "unexpected token",
                  some (text.length - text_.length)⟩
        else .ok (preds, text_)

/-- `NodeWithPredicates.parse`: the base node, then the parenthesised
`|`-separated predicate group. -/
def nwpParse (text : String) (full : Bool) :
    Except YPathSyntaxError (NodeWP × Nat) :=
  match nodeParse text false with
  | .error e => .error e
  | .ok (n, pos) =>
    match nwpLoop text full (text.length + 1)
        (lstripSpace (text.data.drop pos)) [] false with
    | .error e => .error e
    | .ok (preds, rest) => .ok (⟨n, preds⟩, text.length - rest.length)

/-- The position carried by a parse failure, if any. -/
def errPosition {α : Type} : Except YPathSyntaxError α → Option Nat
  | .error e => e.position
  | .ok _ => none

/-! ### Claim C3: parse diagnostics -/

/-- C3 is false as stated: parsing `"1node"` as a node raises a syntax
error whose position is `None`, not offset 0, and parsing `"node@"` raises
with position `None`, not the string's length. -/
theorem node_parse_position_counterexample :
    errPosition (nodeParse "1node" true) ≠ some 0 ∧
    errPosition (nodeParse "node@" true) ≠ some 5 := by
  constructor <;> decide

/-- C3, amended: parsing `"1node"` or `"node@"` as a node raises a syntax
error that carries the failing rule (`Node`) and the offending text but no
problem description and no position (both `None`); indeed every failure of
`Node.parse` carries rule and text only.  (Offsets are attached by the
compound-rule parsers — `Path`, `NodeWithPredicates`, `NodeGroup`,
`MatchAttrPredicate` — not by `Node.parse`.) -/
theorem node_parse_no_position :
    (nodeParse "1node" true = .error ⟨.node, "1node", none, none⟩) ∧
    (nodeParse "node@" true = .error ⟨.node, "node@", none, none⟩) ∧
    (∀ (text : String) (full : Bool) (e : YPathSyntaxError),
      nodeParse text full = .error e → e = ⟨.node, text, none, none⟩) := by
  refine ⟨rfl, rfl, ?_⟩
  intro text full e h
  unfold nodeParse at h
  cases hm : nodeRegex text.data with
  | none =>
    rw [hm] at h
    injection h with h'
    exact h'.symm
  | some p =>
    obtain ⟨n, rest⟩ := p
    simp only [hm] at h
    by_cases hf : (full && !rest.isEmpty) = true
    · rw [if_pos hf] at h
      injection h with h'
      exact h'.symm
    · rw [if_neg hf] at h
      simp at h

/-- Witness for C3's universal part, applied at `"1node"`. -/
theorem node_parse_no_position_witness :
    (⟨.node, "1node", none, none⟩ : YPathSyntaxError) =
      ⟨.node, "1node", none, none⟩ :=
  node_parse_no_position.2.2 "1node" true ⟨.node, "1node", none, none⟩ rfl

/-! ### Claim C5: predicate conjunction -/

theorem allPreds_true_iff (h : Heap) (preds : List Pred) (c : RRef) :
    allPreds h preds c = some true ↔ ∀ p ∈ preds, predMatch h p c = some true := by
  induction preds with
  | nil => simp [allPreds]
  | cons p rest ih =>
    cases hm : predMatch h p c with
    | none => simp [allPreds, hm]
    | some b =>
      cases b with
      | false =>
        simp only [allPreds, hm]
        constructor
        · intro hc; cases hc
        · intro hall
          have := hall p (by simp)
          rw [hm] at this
          cases this
      | true => simp [allPreds, hm, ih]

theorem filterPreds_nil_preds (h : Heap) :
    ∀ items : List RRef, filterPreds h [] items = some items := by
  intro items
  induction items with
  | nil => rfl
  | cons i rest ih => simp [filterPreds, allPreds, ih]

theorem filterPreds_eq (h : Heap) (preds : List Pred) :
    ∀ (items : List RRef) (out : List RRef),
      filterPreds h preds items = some out →
      out = items.filter (fun i => allPreds h preds i == some true) := by
  intro items
  induction items with
  | nil => intro out hout; simpa [filterPreds] using hout.symm
  | cons i rest ih =>
    intro out hout
    simp only [filterPreds] at hout
    cases hb : allPreds h preds i with
    | none => rw [hb] at hout; cases hout
    | some b =>
      rw [hb] at hout
      cases ht : filterPreds h preds rest with
      | none => rw [ht] at hout; cases hout
      | some t =>
        rw [ht] at hout
        cases b with
        | true =>
          have h2 : out = i :: t := by simpa using hout.symm
          rw [h2, ih t ht]
          simp [List.filter_cons, hb]
        | false =>
          have h2 : out = t := by simpa using hout.symm
          rw [h2, ih t ht]
          simp [List.filter_cons, hb]

/-- C5: parsing `node(x==1|y==2)` yields one node with the predicate list
`[x==1, y==2]` (the `|` separator builds a list, not a disjunction), and
`NodeWithPredicates.collect` keeps exactly the candidates for which ALL
predicates match (`all(...)` — conjunction); a node with no predicates
keeps every candidate. -/
theorem predicate_conjunction :
    (nwpParse "node(x==1|y==2)" true =
      .ok (⟨⟨"node", none⟩,
           [.matchAttr [⟨"x", none⟩] .opEq (.int 1),
            .matchAttr [⟨"y", none⟩] .opEq (.int 2)]⟩, 15)) ∧
    (∀ (h : Heap) (nd : NodeA) (preds : List Pred) (m : RRef) (out : List RRef),
      nwpCollect h ⟨nd, preds⟩ m = some out →
      out = (match nodeAccess h nd m with
             | none => []
             | some r => asItems h r).filter
              (fun i => allPreds h preds i == some true)) ∧
    (∀ (h : Heap) (preds : List Pred) (c : RRef),
      allPreds h preds c = some true ↔ ∀ p ∈ preds, predMatch h p c = some true) ∧
    (∀ (h : Heap) (nd : NodeA) (m : RRef),
      nwpCollect h ⟨nd, []⟩ m =
        some (match nodeAccess h nd m with
              | none => []
              | some r => asItems h r)) := by
  refine ⟨rfl, ?_, allPreds_true_iff, ?_⟩
  · intro h nd preds m out hout
    simp only [nwpCollect] at hout
    cases hacc : nodeAccess h nd m with
    | none =>
      rw [hacc] at hout
      simp only [Option.some_inj] at hout
      subst hout
      simp
    | some r =>
      rw [hacc] at hout
      exact filterPreds_eq h preds _ out hout
  · intro h nd m
    simp only [nwpCollect]
    cases hacc : nodeAccess h nd m with
    | none => simp [hacc]
    | some r => simp [hacc, filterPreds_nil_preds]

/-- Witness for C5 at a concrete document: `node` holds two repeated
entries `{x:1, y:2}` and `{x:1, y:3}`; with predicates `x==1|y==2` only the
first is kept (the second satisfies `x==1` but not `y==2` — conjunction,
not disjunction). -/
theorem predicate_conjunction_witness :
    [RRef.heap 3] =
      (match nodeAccess
          [.scalar (.int 1), .scalar (.int 2), .scalar (.int 3),
           .map [("x", 0), ("y", 1)], .map [("x", 0), ("y", 2)],
           .list [3, 4], .map [("node", 5)]]
          ⟨"node", none⟩ (.heap 6) with
       | none => []
       | some r =>
         asItems
          [.scalar (.int 1), .scalar (.int 2), .scalar (.int 3),
           .map [("x", 0), ("y", 1)], .map [("x", 0), ("y", 2)],
           .list [3, 4], .map [("node", 5)]] r).filter
        (fun i => allPreds
          [.scalar (.int 1), .scalar (.int 2), .scalar (.int 3),
           .map [("x", 0), ("y", 1)], .map [("x", 0), ("y", 2)],
           .list [3, 4], .map [("node", 5)]]
          [.matchAttr [⟨"x", none⟩] .opEq (.int 1),
           .matchAttr [⟨"y", none⟩] .opEq (.int 2)] i == some true) :=
  predicate_conjunction.2.1
    [.scalar (.int 1), .scalar (.int 2), .scalar (.int 3),
     .map [("x", 0), ("y", 1)], .map [("x", 0), ("y", 2)],
     .list [3, 4], .map [("node", 5)]]
    ⟨"node", none⟩
    [.matchAttr [⟨"x", none⟩] .opEq (.int 1),
     .matchAttr [⟨"y", none⟩] .opEq (.int 2)]
    (.heap 6) [.heap 3] rfl

end YP

namespace PT

/-!
### The pipeline driver (`ptgrep.py`, `main`, lines 95-130)

The block loop decodes each block with `load_prototxt` inside a `try` whose
single handler is `except yaml.parser.ParserError: continue` (line 105).
`load_prototxt` can also raise the other error kinds of the generic parser —
`yaml.scanner.ScannerError` (tokenization failure, e.g. a `@` starting a
token), `yaml.composer.ComposerError` (e.g. an undefined alias), and
`yaml.reader.ReaderError` — none of which is a `ParserError` subclass, so
any of them propagates out of the loop and aborts the run.  A `None` or
non-dict root is skipped; otherwise the query collects matches which are
written out in order, block by block.  Query evaluation is abstracted as a
total function here (its own raising is claim C2's subject); the run's
output is the ordered list of matches written before the run ends. -/

/-- The error kinds the generic-document decode can raise. -/
inductive DecErr where
  | parserError : DecErr
  | scannerError : DecErr
  | composerError : DecErr
  | readerError : DecErr
deriving Repr, DecidableEq

/-- Is the decode error of the one kind line 105's handler catches? -/
def caughtErr : DecErr → Bool
  | .parserError => true
  | _ => false

/-- How the run ended: all blocks processed, or aborted by an uncaught
decode error; both carry the matches written before that point. -/
inductive PipeRes where
  | done : List QP.Value → PipeRes
  | aborted : List QP.Value → DecErr → PipeRes
deriving Repr

def runPipeline (decode : String → Except DecErr QP.Value)
    (collectQ : QP.Value → List QP.Value) :
    List String → PipeRes
  | [] => .done []
  | b :: rest =>
    match decode b with
    | .error e =>
      if caughtErr e then runPipeline decode collectQ rest
      else .aborted [] e
    | .ok root =>
      match root with
      | .map fs =>
        match runPipeline decode collectQ rest with
        | .done out => .done (collectQ (.map fs) ++ out)
        | .aborted out e => .aborted (collectQ (.map fs) ++ out) e
      | _ => runPipeline decode collectQ rest

/-- C8 (counterexample): a decode failure of a single block can abort the
run.  The same three-block stream, with the same malformed middle block, is
processed to the end when the failure is a `ParserError` (blocks one and
three both yield output), but aborts after block one's output when the
failure is a `ScannerError` — e.g. block text `"a: @x\n"`, whose `@` cannot
start a token, raises `ScannerError`, which line 105's handler does not
catch.  Block three contributes nothing to the aborted run. -/
theorem pipeline_abort_counterexample :
    runPipeline
      (fun s => if s = "bad" then .error .scannerError
                else .ok (.map [("a", QP.Value.int 1)]))
      (fun v => [v]) ["b1", "bad", "b3"] =
      .aborted [QP.Value.map [("a", QP.Value.int 1)]] .scannerError ∧
    runPipeline
      (fun s => if s = "bad" then .error .parserError
                else .ok (.map [("a", QP.Value.int 1)]))
      (fun v => [v]) ["b1", "bad", "b3"] =
      .done [QP.Value.map [("a", QP.Value.int 1)],
             QP.Value.map [("a", QP.Value.int 1)]] :=
  ⟨rfl, rfl⟩

/-- C8 (amended): a block whose decode fails with the generic parser's
`ParserError` is silently skipped and processing continues; when every
decode failure in the stream is of that caught kind, no failure aborts the
run and the output is the concatenation of the per-block results, failed
blocks and non-mapping roots contributing nothing.  A decode failure of any
other kind (`ScannerError`, `ComposerError`, `ReaderError`) aborts the run
at that block. -/
theorem pipeline_skips_bad_blocks
    (decode : String → Except DecErr QP.Value) (cT : QP.Value → List QP.Value)
    (blocks : List String)
    (h : ∀ b ∈ blocks, ∀ e, decode b = .error e → e = .parserError) :
    runPipeline decode cT blocks =
      .done (blocks.map (fun b =>
        match decode b with
        | .error _ => []
        | .ok (.map fs) => cT (.map fs)
        | .ok _ => [])).join := by
  induction blocks with
  | nil => simp [runPipeline]
  | cons b rest ih =>
    have hrest : ∀ b2 ∈ rest, ∀ e, decode b2 = .error e → e = .parserError :=
      fun b2 hb2 e he => h b2 (by simp [hb2]) e he
    cases hd : decode b with
    | error e =>
      have he := h b (by simp) e hd
      subst he
      simp [runPipeline, hd, caughtErr, ih hrest]
    | ok root => cases root <;> simp [runPipeline, hd, ih hrest]

/-- Witness for the amended C8: a concrete three-block stream whose second
block fails decoding with the caught `ParserError`; the run completes and
returns the matches of blocks one and three. -/
theorem pipeline_skips_bad_blocks_witness :
    (∀ b ∈ ["b1", "bad", "b3"], ∀ e,
      (fun s => if s = "bad" then Except.error DecErr.parserError
                else .ok (QP.Value.map [("a", QP.Value.int 1)])) b = .error e →
      e = .parserError) ∧
    runPipeline
      (fun s => if s = "bad" then .error .parserError
                else .ok (.map [("a", QP.Value.int 1)]))
      (fun v => [v]) ["b1", "bad", "b3"] =
      .done [QP.Value.map [("a", QP.Value.int 1)],
             QP.Value.map [("a", QP.Value.int 1)]] := by
  refine ⟨?_, ?_⟩
  · intro b hb e he
    by_cases hbad : b = "bad"
    · subst hbad
      exact ((by simpa using he : DecErr.parserError = e)).symm
    · simp only [hbad, if_neg, if_false, reduceIte] at he
      cases he
  · have h := pipeline_skips_bad_blocks
      (fun s => if s = "bad" then .error .parserError
                else .ok (.map [("a", QP.Value.int 1)]))
      (fun v => [v]) ["b1", "bad", "b3"]
      (by
        intro b hb e he
        by_cases hbad : b = "bad"
        · subst hbad
          exact ((by simpa using he : DecErr.parserError = e)).symm
        · simp only [hbad, if_neg, if_false, reduceIte] at he
          cases he)
    simpa using h

end PT

namespace PB

/-!
### The block splitter (`pb_utils.py`, `StreamReader`)

`read_one` drives a continuation stack of three scanners over one buffered
line at a time: the block scanner (with its brace depth), the quoted-string
scanner, and the comment scanner.  A scanner returns `None` after re-pushing
itself (line exhausted), `Ellipsis` after entering a sub-scanner, `{}` when
a quoted string closes, or `{'newline': True}` at an end of line that
terminates a block or a comment.  The embedding processes the input as the
list of lines `readline` yields (each line ends with a newline except
possibly the last, and contains no interior newline). -/

/-- A continuation-stack entry: `(func, state)` of `StreamReader.states`. -/
inductive SubFn where
  | block : Nat → SubFn
  | quoted : Char → Bool → SubFn
  | comment : SubFn
deriving Repr, DecidableEq

/-- A scanner's return value. -/
inductive SubState where
  | nothing : SubState
  | ellipsis : SubState
  | emptyd : SubState
  | newline : SubState
deriving Repr, DecidableEq

/-- Outcome of running one scanner on the rest of the line: re-pushed and
line exhausted (`None`), or returned a value with possibly pushed scanners
and the remaining characters, or `ValueError('unexpected }')`. -/
inductive FnRes where
  | pend : List SubFn → FnRes
  | cont : List SubFn → SubState → List Char → FnRes
  | err : FnRes
deriving Repr, DecidableEq

/-- The character loop of `_read_block` (lines 73-97): quotes and `#` enter
sub-scanners, a newline at depth 0 ends the block, braces track depth, `}`
at depth 0 raises.  The pushed list is in pop order (head is popped first,
matching the two `append` calls). -/
def blockLoop : Nat → List Char → FnRes
  | depth, [] => .pend [.block depth]
  | depth, c :: rest =>
    if c = '\x22' ∨ c = '\x27' then .cont [.quoted c false, .block depth] .ellipsis rest
    else if c = '\x23' then .cont [.comment, .block depth] .ellipsis rest
    else if c = '\n' then
      if depth = 0 then .cont [] .newline rest else blockLoop depth rest
    else if c = '\x7b' then blockLoop (depth + 1) rest
    else if c = '\x7d' then
      if depth = 0 then .err else blockLoop (depth - 1) rest
    else blockLoop depth rest

/-- `_read_block` (lines 65-97): when resumed with `{'newline': True}` (a
comment just consumed the line end) it seeks back one character and re-reads
that newline. -/
def runBlock (depth : Nat) (sub : SubState) (cs : List Char) : FnRes :=
  if sub = .newline then blockLoop depth ('\n' :: cs) else blockLoop depth cs

/-- `_read_quoted_string` (lines 99-116): backslash-escaped characters never
close the string; the matching quote returns `{}`. -/
def runQuoted (q : Char) : Bool → List Char → FnRes
  | escaped, [] => .pend [.quoted q escaped]
  | true, _ :: rest => runQuoted q false rest
  | false, c :: rest =>
    if c = '\x5c' then runQuoted q true rest
    else if c = q then .cont [] .emptyd rest
    else runQuoted q false rest

/-- `_read_comment` (lines 118-123): consume through the line end. -/
def runComment : List Char → FnRes
  | [] => .pend [.comment]
  | c :: rest => if c = '\n' then .cont [] .newline rest else runComment rest

/-- Dispatch one popped `(func, state)` pair; the quoted-string and comment
scanners ignore the incoming `sub_state`. -/
def runFn : SubFn → SubState → List Char → FnRes
  | .block d, sub, cs => runBlock d sub cs
  | .quoted q e, _, cs => runQuoted q e cs
  | .comment, _, cs => runComment cs

/-- Outcome of the inner `while self.states` loop on one line: the
`while`-`else` branch fired with the final `sub_state` and the unconsumed
suffix (a block is returned), or the loop broke with a pending stack, or a
scanner raised. -/
inductive LineRes where
  | finished : SubState → List Char → LineRes
  | pending : List SubFn → LineRes
  | err : LineRes
deriving Repr, DecidableEq

theorem blockLoop_cont_bound :
    ∀ (d : Nat) (cs : List Char) (p : List SubFn) (s' : SubState) (cs' : List Char),
      blockLoop d cs = .cont p s' cs' → 2 * cs'.length + p.length ≤ 2 * cs.length := by
  intro d cs
  induction cs generalizing d with
  | nil => intro p s' cs' h; cases h
  | cons c rest ih =>
    intro p s' cs' h
    simp only [blockLoop] at h
    split at h
    · cases h; simp only [List.length_cons, List.length_nil]; omega
    · split at h
      · cases h; simp only [List.length_cons, List.length_nil]; omega
      · split at h
        · split at h
          · cases h; simp only [List.length_cons, List.length_nil]; omega
          · have := ih _ _ _ _ h; simp only [List.length_cons]; omega
        · split at h
          · have := ih _ _ _ _ h; simp only [List.length_cons]; omega
          · split at h
            · split at h
              · cases h
              · have := ih _ _ _ _ h; simp only [List.length_cons]; omega
            · have := ih _ _ _ _ h; simp only [List.length_cons]; omega

theorem runBlock_cont_bound {d : Nat} {sub : SubState} {cs : List Char}
    {p : List SubFn} {s' : SubState} {cs' : List Char}
    (h : runBlock d sub cs = .cont p s' cs') :
    2 * cs'.length + p.length ≤ 2 * cs.length := by
  unfold runBlock at h
  split at h
  · -- the re-read newline: unfold one step of the loop by hand
    simp only [blockLoop] at h
    have h22 : ¬ ('\n' = '\x22' ∨ '\n' = '\x27') := by decide
    have h23 : ('\n' : Char) ≠ '\x23' := by decide
    have hnl : ('\n' : Char) = '\n' := rfl
    rw [if_neg h22, if_neg h23] at h
    simp only [hnl, ite_true] at h
    split at h
    · cases h; simp only [List.length_nil]; omega
    · exact blockLoop_cont_bound _ _ _ _ _ h
  · exact blockLoop_cont_bound _ _ _ _ _ h

theorem runQuoted_cont_bound :
    ∀ (e : Bool) (cs : List Char) {q : Char} {p : List SubFn} {s' : SubState}
      {cs' : List Char},
      runQuoted q e cs = .cont p s' cs' → 2 * cs'.length + p.length ≤ 2 * cs.length := by
  intro e cs
  induction cs generalizing e with
  | nil => intro q p s' cs' h; cases e <;> simp [runQuoted] at h
  | cons c rest ih =>
    intro q p s' cs' h
    cases e with
    | true =>
      simp only [runQuoted] at h
      have := ih _ h
      simp only [List.length_cons]; omega
    | false =>
      simp only [runQuoted] at h
      split at h
      · have := ih _ h; simp only [List.length_cons]; omega
      · split at h
        · cases h; simp only [List.length_cons, List.length_nil]; omega
        · have := ih _ h; simp only [List.length_cons]; omega

theorem runComment_cont_bound :
    ∀ (cs : List Char) {p : List SubFn} {s' : SubState} {cs' : List Char},
      runComment cs = .cont p s' cs' → 2 * cs'.length + p.length ≤ 2 * cs.length := by
  intro cs
  induction cs with
  | nil => intro p s' cs' h; cases h
  | cons c rest ih =>
    intro p s' cs' h
    simp only [runComment] at h
    split at h
    · cases h; simp only [List.length_cons, List.length_nil]; omega
    · have := ih h; simp only [List.length_cons]; omega

theorem runFn_cont_bound {fn : SubFn} {sub : SubState} {cs : List Char}
    {p : List SubFn} {s' : SubState} {cs' : List Char}
    (h : runFn fn sub cs = .cont p s' cs') :
    2 * cs'.length + p.length ≤ 2 * cs.length := by
  cases fn with
  | block d => exact runBlock_cont_bound h
  | quoted q e => exact runQuoted_cont_bound e cs h
  | comment => exact runComment_cont_bound cs h

/-- The inner `while self.states` loop (lines 48-60): pop, run, continue on
a returned value, break on `None`, fall to the `else` branch when the stack
empties.  Structured with fuel; `2 * cs.length + stack.length` strictly
decreases each iteration, so the seeded fuel below never runs out. -/
def runStackF : Nat → List SubFn → SubState → List Char → Option LineRes
  | 0, _, _, _ => none
  | fuel + 1, stack, sub, cs =>
    match stack with
    | [] => some (.finished sub cs)
    | fn :: rest =>
      match runFn fn sub cs with
      | .pend pushed => some (.pending (pushed ++ rest))
      | .err => some .err
      | .cont pushed sub2 cs2 => runStackF fuel (pushed ++ rest) sub2 cs2

theorem runStackF_total :
    ∀ (fuel : Nat) (stack : List SubFn) (sub : SubState) (cs : List Char),
      2 * cs.length + stack.length < fuel →
      (runStackF fuel stack sub cs).isSome = true := by
  intro fuel
  induction fuel with
  | zero => intro stack sub cs h; omega
  | succ n ih =>
    intro stack sub cs h
    simp only [runStackF]
    match stack with
    | [] => simp
    | fn :: rest =>
      simp only []
      cases hr : runFn fn sub cs with
      | pend pushed => simp
      | err => simp
      | cont pushed sub2 cs2 =>
        apply ih
        have := runFn_cont_bound hr
        simp only [List.length_append, List.length_cons] at h ⊢
        omega

/-- The loop with its fuel seeded to suffice. -/
def runStack (stack : List SubFn) (sub : SubState) (cs : List Char) : LineRes :=
  (runStackF (2 * cs.length + stack.length + 1) stack sub cs).getD .err

/-- Result of one `read_one` call: a returned block together with the lines
not yet consumed, clean end of stream (`None`), `IOError('stream closed with
trailing content')`, or `ValueError('unexpected }')`. -/
inductive ReadRes where
  | block : String → List String → ReadRes
  | eof : ReadRes
  | ioError : ReadRes
  | valueError : ReadRes
deriving Repr, DecidableEq

/-- `read_one` (lines 31-63): per line, start a fresh block scanner when the
stack is idle and the line is not blank, then run the scanner stack from the
start of the line.  When the stack empties (the `while`-`else` branch), the
buffer up to the current position is returned — the consumed prefix of the
line appended to the previously consumed lines — with a newline appended
unless the final scanner value was `\x7b'newline': True\x7d`.  A line
exhausted with scanners pending is absorbed into the buffer and reading
continues; end of stream with pending scanners raises `IOError`. -/
def readOne (acc : String) (stack : List SubFn) : List String → ReadRes
  | [] => if stack.isEmpty then .eof else .ioError
  | line :: rest =>
    let stack1 := if stack.isEmpty && !(line.data.all YP.pyIsSpace) then
      [SubFn.block 0] else stack
    match runStack stack1 .nothing line.data with
    | .err => .valueError
    | .pending st2 => readOne (acc ++ line) st2 rest
    | .finished sub csRem =>
      let ret := acc ++ String.mk (line.data.take (line.data.length - csRem.length))
      .block (if sub = .newline then ret else ret ++ "\n") rest

theorem readOne_shrinks :
    ∀ (lines : List String) (acc : String) (stack : List SubFn) (b : String)
      (rest : List String),
      readOne acc stack lines = .block b rest → rest.length < lines.length := by
  intro lines
  induction lines with
  | nil =>
    intro acc stack b rest h
    simp only [readOne] at h
    split at h <;> cases h
  | cons line tl ih =>
    intro acc stack b rest h
    simp only [readOne] at h
    split at h
    · cases h
    · have := ih _ _ _ _ h
      simp only [List.length_cons]
      omega
    · cases h
      simp only [List.length_cons]
      omega

/-- Outcome of the one-shot iteration (`__iter__`, lines 23-29): the blocks
yielded before the stream ended cleanly, or before `read_one` raised. -/
inductive SplitRes where
  | ok : List String → SplitRes
  | ioError : List String → SplitRes
  | valueError : List String → SplitRes
deriving Repr, DecidableEq

/-- The blocks an iteration yielded, regardless of how it ended. -/
def blocksOf : SplitRes → List String
  | .ok bs => bs
  | .ioError bs => bs
  | .valueError bs => bs

/-- `for b in s:` over a `StreamReader`: repeated `read_one` until it
returns `None` (falsy) or raises.  Fueled; each `read_one` that yields a
block consumes at least one line, so the seeded fuel never runs out. -/
def splitBlocksF : Nat → List String → Option SplitRes
  | 0, _ => none
  | fuel + 1, lines =>
    match readOne "" [] lines with
    | .eof => some (.ok [])
    | .ioError => some (.ioError [])
    | .valueError => some (.valueError [])
    | .block b rest =>
      match splitBlocksF fuel rest with
      | none => none
      | some (.ok bs) => some (.ok (b :: bs))
      | some (.ioError bs) => some (.ioError (b :: bs))
      | some (.valueError bs) => some (.valueError (b :: bs))

theorem splitBlocksF_total :
    ∀ (fuel : Nat) (lines : List String), lines.length < fuel →
      (splitBlocksF fuel lines).isSome = true := by
  intro fuel
  induction fuel with
  | zero => intro lines h; omega
  | succ n ih =>
    intro lines h
    simp only [splitBlocksF]
    cases hr : readOne "" [] lines with
    | eof => simp
    | ioError => simp
    | valueError => simp
    | block b rest =>
      simp only []
      have hlt := readOne_shrinks _ _ _ _ _ hr
      have := ih rest (by omega)
      cases hs : splitBlocksF n rest with
      | none => rw [hs] at this; cases this
      | some r => cases r <;> simp

/-- The iteration with its fuel seeded to suffice. -/
def splitBlocks (lines : List String) : SplitRes :=
  (splitBlocksF (lines.length + 1) lines).getD (.ok [])

/-- A character list with newlines only in final position. -/
def TailNl (cs : List Char) : Prop :=
  (Char.ofNat 10) ∉ cs.dropLast ∧ (cs ≠ [] → cs.getLast? = some (Char.ofNat 10))

instance : DecidablePred TailNl := fun cs => by
  unfold TailNl; infer_instance

/-- A line as `readline` yields it on a newline-terminated stream: nonempty,
ending with the only newline it contains. -/
def GoodLine (l : String) : Prop := l.data ≠ [] ∧ TailNl l.data

instance : DecidablePred GoodLine := fun l => by
  unfold GoodLine; infer_instance

/-- The text ends with exactly one newline: final character a newline, not
preceded by another. -/
def oneTrailingNewline (b : String) : Bool :=
  match b.data.reverse with
  | c1 :: c2 :: _ => c1 = (Char.ofNat 10) && c2 ≠ (Char.ofNat 10)
  | [c1] => c1 = (Char.ofNat 10)
  | [] => false


/-- Stack shapes reachable at any point while scanning a line: at most one
quoted-string or comment scanner above the single block scanner. -/
def MidShape : List SubFn → Bool
  | [] => true
  | [.block _] => true
  | [.quoted q _, .block _] => q = '\x22' || q = '\x27'
  | [.comment, .block _] => true
  | _ => false

/-- Stack shapes that can be pending when a newline-terminated line is
exhausted: a block scanner inside braces, possibly under a quoted-string
scanner.  A depth-0 block alone cannot pend (it would have ended at the
newline) and a comment cannot pend (it ends at the newline). -/
def PendShape : List SubFn → Bool
  | [.block d] => decide (1 ≤ d)
  | [.quoted q _, .block _] => q = '\x22' || q = '\x27'
  | _ => false

/-- Invariant threaded through one line's scanner run: a reachable stack
shape, newline only final in the rest of the line, and a `newline` scanner
value only ever arises with the line consumed and the block scanner (or
nothing) on top. -/
def LineInv (stack : List SubFn) (sub : SubState) (cs : List Char) : Prop :=
  MidShape stack = true ∧ TailNl cs ∧ (sub = .newline → cs = []) ∧
  (match stack with
   | .block _ :: _ => sub = .newline ∨ cs ≠ []
   | .comment :: _ => cs ≠ [] ∧ sub ≠ .newline
   | .quoted _ _ :: _ => sub ≠ .newline
   | [] => True)

theorem pendShape_midShape {s : List SubFn} (h : PendShape s = true) :
    MidShape s = true := by
  match s with
  | [] => simp [PendShape] at h
  | [.block d] => simp [MidShape]
  | [.quoted q e, .block d] => simpa [PendShape, MidShape] using h
  | [.quoted q e] => simp [PendShape] at h
  | [.comment] => simp [PendShape] at h
  | .comment :: x :: t => simp [PendShape] at h
  | .block d :: x :: t => simp [PendShape] at h
  | .quoted q e :: x :: y :: t => simp [PendShape] at h

theorem pendShape_ne_nil {s : List SubFn} (h : PendShape s = true) : s ≠ [] := by
  intro he; subst he; simp [PendShape] at h

theorem tailNl_cons {c : Char} {rest : List Char} (h : TailNl (c :: rest)) :
    (rest = [] ∧ c = Char.ofNat 10) ∨ (c ≠ Char.ofNat 10 ∧ TailNl rest ∧ rest ≠ []) := by
  obtain ⟨h1, h2⟩ := h
  match rest with
  | [] =>
    left
    refine ⟨rfl, ?_⟩
    have := h2 (by simp)
    simpa [List.getLast?] using this
  | d :: t =>
    right
    simp only [List.dropLast_cons₂, List.mem_cons] at h1
    push_neg at h1
    refine ⟨fun he => h1.1 he.symm, ⟨?_, fun _ => ?_⟩, by simp⟩
    · exact h1.2
    · have := h2 (by simp)
      simpa [List.getLast?_cons_cons] using this

theorem tailNl_last {cs : List Char} (h : TailNl cs) (hne : cs ≠ []) :
    cs.getLast? = some (Char.ofNat 10) := h.2 hne

/-- On a line whose only newline is final, the block scanner can pend only
at a positive brace depth (the line-end newline would otherwise have ended
the block). -/
theorem blockLoop_pend :
    ∀ (cs : List Char) (d : Nat) (p : List SubFn), TailNl cs → cs ≠ [] →
      blockLoop d cs = .pend p → ∃ d2, 1 ≤ d2 ∧ p = [SubFn.block d2] := by
  intro cs
  induction cs with
  | nil => intro d p _ hne _; exact absurd rfl hne
  | cons c rest ih =>
    intro d p ht _ h
    simp only [blockLoop] at h
    rcases tailNl_cons ht with ⟨hre, hc⟩ | ⟨hc, ht2, hrne⟩
    · subst hre; subst hc
      rw [if_neg (by decide), if_neg (by decide), if_pos (by decide)] at h
      split at h
      · cases h
      · simp only [blockLoop] at h
        cases h
        rename_i hd0
        exact ⟨d, by omega, rfl⟩
    · by_cases hq : (c = '\x22' ∨ c = '\x27')
      · rw [if_pos hq] at h; cases h
      · rw [if_neg hq] at h
        by_cases h23 : c = '\x23'
        · rw [if_pos h23] at h; cases h
        · rw [if_neg h23] at h
          have hnl : ¬ c = '\n' := fun he => hc (he.trans (by decide))
          rw [if_neg hnl] at h
          by_cases hlb : c = '\x7b'
          · rw [if_pos hlb] at h; exact ih _ _ ht2 hrne h
          · rw [if_neg hlb] at h
            by_cases hrb : c = '\x7d'
            · rw [if_pos hrb] at h
              by_cases hd : d = 0
              · rw [if_pos hd] at h; cases h
              · rw [if_neg hd] at h; exact ih _ _ ht2 hrne h
            · rw [if_neg hrb] at h; exact ih _ _ ht2 hrne h


/-- Full characterization of the block scanner's returns on a line whose
only newline is final: a depth-0 line end, or entry into a quoted string or
a comment. -/
theorem blockLoop_cont :
    ∀ (cs : List Char) (d : Nat) (p : List SubFn) (s : SubState) (cs2 : List Char),
      TailNl cs → blockLoop d cs = .cont p s cs2 →
      TailNl cs2 ∧
      ((p = [] ∧ s = .newline ∧ cs2 = []) ∨
       (∃ q d2, (q = '\x22' ∨ q = '\x27') ∧
         p = [SubFn.quoted q false, SubFn.block d2] ∧ s = .ellipsis) ∨
       (∃ d2, p = [SubFn.comment, SubFn.block d2] ∧ s = .ellipsis ∧ cs2 ≠ [])) := by
  intro cs
  induction cs with
  | nil => intro d p s cs2 _ h; cases h
  | cons c rest ih =>
    intro d p s cs2 ht h
    simp only [blockLoop] at h
    rcases tailNl_cons ht with ⟨hre, hc⟩ | ⟨hc, ht2, hrne⟩
    · subst hre; subst hc
      rw [if_neg (by decide), if_neg (by decide), if_pos (by decide)] at h
      split at h
      · cases h
        exact ⟨⟨by simp, by simp⟩, Or.inl ⟨rfl, rfl, rfl⟩⟩
      · simp only [blockLoop] at h; cases h
    · by_cases hq : (c = '\x22' ∨ c = '\x27')
      · rw [if_pos hq] at h
        cases h
        exact ⟨ht2, Or.inr (Or.inl ⟨c, d, hq, rfl, rfl⟩)⟩
      · rw [if_neg hq] at h
        by_cases h23 : c = '\x23'
        · rw [if_pos h23] at h
          cases h
          exact ⟨ht2, Or.inr (Or.inr ⟨d, rfl, rfl, hrne⟩)⟩
        · rw [if_neg h23] at h
          have hnl : ¬ c = '\n' := fun he => hc (he.trans (by decide))
          rw [if_neg hnl] at h
          by_cases hlb : c = '\x7b'
          · rw [if_pos hlb] at h; exact ih _ _ _ _ ht2 h
          · rw [if_neg hlb] at h
            by_cases hrb : c = '\x7d'
            · rw [if_pos hrb] at h
              by_cases hd : d = 0
              · rw [if_pos hd] at h; cases h
              · rw [if_neg hd] at h; exact ih _ _ _ _ ht2 h
            · rw [if_neg hrb] at h; exact ih _ _ _ _ ht2 h

theorem runBlock_cont_char {d : Nat} {sub : SubState} {cs : List Char}
    {p : List SubFn} {s : SubState} {cs2 : List Char}
    (hsub : sub = .newline → cs = []) (ht : TailNl cs)
    (h : runBlock d sub cs = .cont p s cs2) :
    TailNl cs2 ∧
    ((p = [] ∧ s = .newline ∧ cs2 = []) ∨
     (∃ q d2, (q = '\x22' ∨ q = '\x27') ∧
       p = [SubFn.quoted q false, SubFn.block d2] ∧ s = .ellipsis) ∨
     (∃ d2, p = [SubFn.comment, SubFn.block d2] ∧ s = .ellipsis ∧ cs2 ≠ [])) := by
  unfold runBlock at h
  split at h
  · rename_i hs
    rw [hsub hs] at h
    exact blockLoop_cont _ _ _ _ _ (by decide) h
  · exact blockLoop_cont _ _ _ _ _ ht h

theorem runBlock_pend {d : Nat} {sub : SubState} {cs : List Char} {p : List SubFn}
    (hsub : sub = .newline → cs = []) (ht : TailNl cs)
    (hcs : sub = .newline ∨ cs ≠ [])
    (h : runBlock d sub cs = .pend p) : ∃ d2, 1 ≤ d2 ∧ p = [SubFn.block d2] := by
  unfold runBlock at h
  split at h
  · rename_i hs
    rw [hsub hs] at h
    exact blockLoop_pend _ _ _ (by decide) (by simp) h
  · rename_i hs
    rcases hcs with hcs | hcs
    · exact absurd hcs hs
    · exact blockLoop_pend _ _ _ ht hcs h

theorem runQuoted_pend :
    ∀ (cs : List Char) (e : Bool) {q : Char} {p : List SubFn},
      runQuoted q e cs = .pend p → ∃ e2, p = [SubFn.quoted q e2] := by
  intro cs
  induction cs with
  | nil =>
    intro e q p h
    cases e <;> (simp only [runQuoted] at h; cases h) <;> exact ⟨_, rfl⟩
  | cons c rest ih =>
    intro e q p h
    cases e with
    | true => exact ih _ h
    | false =>
      simp only [runQuoted] at h
      split at h
      · exact ih _ h
      · split at h
        · cases h
        · exact ih _ h

theorem runQuoted_cont :
    ∀ (cs : List Char) (e : Bool) {q : Char} {p : List SubFn} {s : SubState}
      {cs2 : List Char},
      TailNl cs → (q = '\x22' ∨ q = '\x27') → runQuoted q e cs = .cont p s cs2 →
      p = [] ∧ s = .emptyd ∧ TailNl cs2 ∧ cs2 ≠ [] := by
  intro cs
  induction cs with
  | nil => intro e q p s cs2 _ _ h; cases e <;> simp [runQuoted] at h
  | cons c rest ih =>
    intro e q p s cs2 ht hq h
    rcases tailNl_cons ht with ⟨hre, hc⟩ | ⟨hc, ht2, hrne⟩
    · subst hre; subst hc
      cases e with
      | true => simp only [runQuoted] at h; cases h
      | false =>
        simp only [runQuoted] at h
        rw [if_neg (by decide)] at h
        split at h
        · rename_i hcq
          rcases hq with hq | hq <;> (rw [hq] at hcq; exact absurd hcq (by decide))
        · cases h
    · cases e with
      | true => exact ih _ ht2 hq h
      | false =>
        simp only [runQuoted] at h
        split at h
        · exact ih _ ht2 hq h
        · split at h
          · cases h
            exact ⟨rfl, rfl, ht2, hrne⟩
          · exact ih _ ht2 hq h

theorem runQuoted_ne_err :
    ∀ (cs : List Char) (e : Bool) (q : Char), runQuoted q e cs ≠ .err := by
  intro cs
  induction cs with
  | nil => intro e q h; cases e <;> simp [runQuoted] at h
  | cons c rest ih =>
    intro e q h
    cases e with
    | true => exact ih _ _ h
    | false =>
      simp only [runQuoted] at h
      split at h
      · exact ih _ _ h
      · split at h
        · cases h
        · exact ih _ _ h

theorem runComment_pend :
    ∀ (cs : List Char) {p : List SubFn}, runComment cs = .pend p →
      p = [SubFn.comment] ∧ Char.ofNat 10 ∉ cs := by
  intro cs
  induction cs with
  | nil => intro p h; cases h; exact ⟨rfl, by simp⟩
  | cons c rest ih =>
    intro p h
    simp only [runComment] at h
    split at h
    · cases h
    · rename_i hcnl
      obtain ⟨h1, h2⟩ := ih h
      refine ⟨h1, ?_⟩
      simp only [List.mem_cons, not_or]
      exact ⟨fun he => hcnl (he.symm.trans (by decide)), h2⟩

theorem runComment_cont :
    ∀ (cs : List Char) {p : List SubFn} {s : SubState} {cs2 : List Char},
      TailNl cs → runComment cs = .cont p s cs2 →
      p = [] ∧ s = .newline ∧ cs2 = [] := by
  intro cs
  induction cs with
  | nil => intro p s cs2 _ h; cases h
  | cons c rest ih =>
    intro p s cs2 ht h
    simp only [runComment] at h
    rcases tailNl_cons ht with ⟨hre, hc⟩ | ⟨hc, ht2, hrne⟩
    · subst hre; subst hc
      rw [if_pos (by decide)] at h
      cases h
      exact ⟨rfl, rfl, rfl⟩
    · rw [if_neg (fun he => hc (he.trans (by decide)))] at h
      exact ih ht2 h

theorem runComment_ne_err : ∀ (cs : List Char), runComment cs ≠ .err := by
  intro cs
  induction cs with
  | nil => intro h; cases h
  | cons c rest ih =>
    intro h
    simp only [runComment] at h
    split at h
    · cases h
    · exact ih h


theorem midShape_block {d : Nat} {rest : List SubFn}
    (h : MidShape (SubFn.block d :: rest) = true) : rest = [] := by
  cases rest with
  | nil => rfl
  | cons x t => simp [MidShape] at h

theorem midShape_quoted {q : Char} {e : Bool} {rest : List SubFn}
    (h : MidShape (SubFn.quoted q e :: rest) = true) :
    (q = '\x22' ∨ q = '\x27') ∧ ∃ d, rest = [SubFn.block d] := by
  match rest with
  | [] => simp [MidShape] at h
  | [SubFn.block d] =>
    refine ⟨?_, d, rfl⟩
    simpa [MidShape, decide_eq_true_eq] using h
  | [SubFn.quoted _ _] => simp [MidShape] at h
  | [SubFn.comment] => simp [MidShape] at h
  | x :: y :: t => simp [MidShape] at h

theorem midShape_comment {rest : List SubFn}
    (h : MidShape (SubFn.comment :: rest) = true) : ∃ d, rest = [SubFn.block d] := by
  match rest with
  | [] => simp [MidShape] at h
  | [SubFn.block d] => exact ⟨d, rfl⟩
  | [SubFn.quoted _ _] => simp [MidShape] at h
  | [SubFn.comment] => simp [MidShape] at h
  | x :: y :: t => simp [MidShape] at h

theorem tailNl_mem : ∀ (cs : List Char), TailNl cs → cs ≠ [] → Char.ofNat 10 ∈ cs := by
  intro cs
  induction cs with
  | nil => intro _ hne; exact absurd rfl hne
  | cons c rest ih =>
    intro ht _
    rcases tailNl_cons ht with ⟨_, hc⟩ | ⟨_, ht2, hrne⟩
    · simp [hc]
    · exact List.mem_cons_of_mem _ (ih ht2 hrne)

/-- On a line whose only newline is final, a scanner run from a reachable
state either finishes exactly at the line end with the `newline` value,
pends in a resumable shape, or raises on an unexpected `\x7d`. -/
theorem runStackF_good :
    ∀ (fuel : Nat) (stack : List SubFn) (sub : SubState) (cs : List Char)
      (r : LineRes),
      LineInv stack sub cs → stack ≠ [] →
      runStackF fuel stack sub cs = some r →
      r = .finished .newline [] ∨
      (∃ st2, r = .pending st2 ∧ PendShape st2 = true) ∨ r = .err := by
  intro fuel
  induction fuel with
  | zero => intro stack sub cs r _ _ h; cases h
  | succ n ih =>
    intro stack sub cs r hinv hne h
    obtain ⟨hms, ht, hsubnl, hhead⟩ := hinv
    cases stack with
    | nil => exact absurd rfl hne
    | cons fn rest =>
      simp only [runStackF] at h
      cases fn with
      | block d =>
        have hrest := midShape_block hms
        subst hrest
        simp only [runFn] at h
        cases hr : runBlock d sub cs with
        | pend pushed =>
          rw [hr] at h
          simp only [Option.some.injEq] at h
          obtain ⟨d2, hd2, hp⟩ := runBlock_pend hsubnl ht hhead hr
          subst hp
          refine Or.inr (Or.inl ⟨_, h.symm, ?_⟩)
          simp [PendShape, hd2]
        | err =>
          rw [hr] at h
          simp only [Option.some.injEq] at h
          exact Or.inr (Or.inr h.symm)
        | cont pushed sub2 cs2 =>
          rw [hr] at h
          obtain ⟨ht2, hdis⟩ := runBlock_cont_char hsubnl ht hr
          rcases hdis with ⟨hp, hs2, hc2⟩ | ⟨q, d2, hq, hp, hs2⟩ | ⟨d2, hp, hs2, hc2⟩
          · subst hp; subst hs2; subst hc2
            cases n with
            | zero => cases h
            | succ m =>
              simp only [runStackF, List.nil_append] at h
              simp only [Option.some.injEq] at h
              exact Or.inl h.symm
          · subst hp; subst hs2
            refine ih _ _ _ _ ?_ (by simp) h
            refine ⟨?_, ht2, (by intro hx; cases hx), (by intro hx; cases hx)⟩
            rcases hq with hq | hq <;> simp [MidShape, hq]
          · subst hp; subst hs2
            refine ih _ _ _ _ ?_ (by simp) h
            exact ⟨by simp [MidShape], ht2, (by intro hx; cases hx),
              ⟨hc2, (by intro hx; cases hx)⟩⟩
      | quoted q e =>
        obtain ⟨hq, d, hrest⟩ := midShape_quoted hms
        subst hrest
        simp only [runFn] at h
        cases hr : runQuoted q e cs with
        | pend pushed =>
          rw [hr] at h
          simp only [Option.some.injEq] at h
          obtain ⟨e2, hp⟩ := runQuoted_pend cs e hr
          subst hp
          refine Or.inr (Or.inl ⟨_, h.symm, ?_⟩)
          rcases hq with hq | hq <;> simp [PendShape, hq]
        | err => exact absurd hr (runQuoted_ne_err cs e q)
        | cont pushed sub2 cs2 =>
          rw [hr] at h
          obtain ⟨hp, hs2, ht2, hc2⟩ := runQuoted_cont cs e ht hq hr
          subst hp; subst hs2
          refine ih _ _ _ _ ?_ (by simp) h
          exact ⟨by simp [MidShape], ht2, (by intro hx; cases hx), Or.inr hc2⟩
      | comment =>
        obtain ⟨d, hrest⟩ := midShape_comment hms
        subst hrest
        simp only [runFn] at h
        cases hr : runComment cs with
        | pend pushed =>
          obtain ⟨_, hnm⟩ := runComment_pend cs hr
          exact absurd (tailNl_mem cs ht hhead.1) hnm
        | err => exact absurd hr (runComment_ne_err cs)
        | cont pushed sub2 cs2 =>
          rw [hr] at h
          obtain ⟨hp, hs2, hc2⟩ := runComment_cont cs ht hr
          subst hp; subst hs2; subst hc2
          refine ih _ _ _ _ ?_ (by simp) h
          exact ⟨by simp [MidShape], ⟨by simp, by simp⟩, (fun _ => rfl), Or.inl rfl⟩

/-- The per-line scanner run, with the states a pending stack can be in at
a line start. -/
theorem runStack_good {stack : List SubFn} {sub : SubState} {cs : List Char}
    (hinv : LineInv stack sub cs) (hne : stack ≠ []) :
    runStack stack sub cs = .finished .newline [] ∨
    (∃ st2, runStack stack sub cs = .pending st2 ∧ PendShape st2 = true) ∨
    runStack stack sub cs = .err := by
  unfold runStack
  have htot := runStackF_total (2 * cs.length + stack.length + 1) stack sub cs (by omega)
  cases hr : runStackF (2 * cs.length + stack.length + 1) stack sub cs with
  | none => rw [hr] at htot; cases htot
  | some r =>
    have := runStackF_good _ _ _ _ _ hinv hne hr
    simpa using this


theorem runStack_nil (sub : SubState) (cs : List Char) :
    runStack [] sub cs = .finished sub cs := by
  simp [runStack, runStackF]

/-- A pending stack never finishes on a line holding only a newline: the
block scanner is inside braces and the quoted-string scanner swallows the
newline as content. -/
theorem runStack_single_nl {stack : List SubFn} (h : PendShape stack = true) :
    ∃ st2, runStack stack .nothing [Char.ofNat 10] = .pending st2 ∧
      PendShape st2 = true := by
  match stack, h with
  | [SubFn.block d], h =>
    have hd : 1 ≤ d := by simpa [PendShape, decide_eq_true_eq] using h
    have hd0 : ¬ d = 0 := by omega
    refine ⟨[SubFn.block d], ?_, h⟩
    simp [runStack, runStackF, runFn, runBlock, blockLoop, hd0]
  | [SubFn.quoted q e, SubFn.block d], h =>
    have hq : (q = '\x22' ∨ q = '\x27') := by
      simpa [PendShape, decide_eq_true_eq] using h
    refine ⟨[SubFn.quoted q false, SubFn.block d], ?_, ?_⟩
    · have hqnl : ¬ (Char.ofNat 10 = q) := by
        rcases hq with hq | hq <;> (subst hq; decide)
      cases e <;>
        simp [runStack, runStackF, runFn, runQuoted, hqnl]
    · rcases hq with hq | hq <;> simp [PendShape, hq]

/-- Appending a line that ends with its only newline to any prefix yields
text ending with exactly one newline, provided the line is not the bare
newline. -/
theorem oneTrailing_append (pre : List Char) {ld : List Char} {s : String}
    (hs : s.data = pre ++ ld)
    (ht : TailNl ld) (hne : ld ≠ []) (hno : ld ≠ [Char.ofNat 10]) :
    oneTrailingNewline s = true := by
  have hgl : ld.getLast? = some (Char.ofNat 10) := ht.2 hne
  have h2 : ld.getLast hne = Char.ofNat 10 := by
    have hg := List.getLast?_eq_getLast ld hne
    rw [hg] at hgl
    exact Option.some_injective _ hgl
  have hsplit : ld.dropLast ++ [Char.ofNat 10] = ld := by
    have h1 := List.dropLast_append_getLast hne
    rw [h2] at h1
    exact h1
  have hbody : ld.dropLast ≠ [] := by
    intro hb
    rw [hb, List.nil_append] at hsplit
    exact hno hsplit.symm
  have hnonl : Char.ofNat 10 ∉ ld.dropLast := ht.1
  obtain ⟨c2, t2, hrev2⟩ : ∃ c2 t2, ld.dropLast.reverse = c2 :: t2 := by
    cases hrb : ld.dropLast.reverse with
    | nil =>
      rw [List.reverse_eq_nil_iff] at hrb
      exact absurd hrb hbody
    | cons c2 t2 => exact ⟨c2, t2, rfl⟩
  have hc2 : ¬ (c2 = Char.ofNat 10) := by
    intro he
    apply hnonl
    have hm : c2 ∈ ld.dropLast.reverse := by rw [hrev2]; simp
    rw [List.mem_reverse] at hm
    rwa [he] at hm
  have hrev : s.data.reverse = Char.ofNat 10 :: c2 :: (t2 ++ pre.reverse) := by
    rw [hs, ← hsplit, ← List.append_assoc, List.reverse_append, List.reverse_append,
      hrev2]
    simp
  unfold oneTrailingNewline
  rw [hrev]
  simp [hc2]


/-- Every block `read_one` returns on a newline-terminated stream ends with
exactly one newline: either the full scanned lines whose last line supplied
the final newline, or the bare `"\n"` an idle blank line produces. -/
theorem readOne_good :
    ∀ (lines : List String) (acc : String) (stack : List SubFn)
      (b : String) (rest : List String),
      (∀ l ∈ lines, GoodLine l) →
      (stack = [] → acc = "") →
      (stack ≠ [] → PendShape stack = true) →
      readOne acc stack lines = .block b rest →
      oneTrailingNewline b = true ∧ ∀ l ∈ rest, GoodLine l := by
  intro lines
  induction lines with
  | nil =>
    intro acc stack b rest _ _ _ h
    simp only [readOne] at h
    split at h <;> cases h
  | cons line tl ih =>
    intro acc stack b rest hg hacc hps h
    have hgl : GoodLine line := hg line (by simp)
    have hgtl : ∀ l ∈ tl, GoodLine l := fun l hl => hg l (by simp [hl])
    simp only [readOne] at h
    by_cases hse : stack.isEmpty = true
    · have hsl : stack = [] := by
        cases stack with
        | nil => rfl
        | cons x t => simp [List.isEmpty] at hse
      subst hsl
      by_cases hbl : line.data.all YP.pyIsSpace = true
      · rw [if_neg (by simp [hbl])] at h
        rw [runStack_nil] at h
        simp only [Nat.sub_self, List.take_zero, reduceIte] at h
        injection h with hb hrest
        subst hrest
        refine ⟨?_, hgtl⟩
        rw [← hb, hacc rfl]
        decide
      · rw [if_pos (by simp [hse, hbl])] at h
        have hinv : LineInv [SubFn.block 0] .nothing line.data :=
          ⟨by simp [MidShape], hgl.2, (by intro hx; cases hx), Or.inr hgl.1⟩
        rcases runStack_good hinv (by simp) with hfin | ⟨st2, hpend, hps2⟩ | herr
        · rw [hfin] at h
          simp only [List.length_nil, Nat.sub_zero, List.take_length, reduceIte] at h
          injection h with hb hrest
          subst hrest
          refine ⟨?_, hgtl⟩
          have hnb : line.data ≠ [Char.ofNat 10] := by
            intro he
            rw [he] at hbl
            exact hbl (by decide)
          have hdata : b.data = acc.data ++ line.data := by
            rw [← hb]
            have hmk : String.mk line.data = line := rfl
            rw [hmk]
            exact String.data_append acc line
          exact oneTrailing_append acc.data hdata hgl.2 hgl.1 hnb
        · rw [hpend] at h
          exact ih _ _ _ _ hgtl (fun he => absurd he (pendShape_ne_nil hps2))
            (fun _ => hps2) h
        · rw [herr] at h; cases h
    · have hne : stack ≠ [] := by
        intro he; rw [he] at hse; exact hse rfl
      rw [if_neg (by simp [hse])] at h
      by_cases hnl1 : line.data = [Char.ofNat 10]
      · rw [hnl1] at h
        obtain ⟨st2, hpend, hps3⟩ := runStack_single_nl (hps hne)
        rw [hpend] at h
        exact ih _ _ _ _ hgtl (fun he => absurd he (pendShape_ne_nil hps3))
          (fun _ => hps3) h
      · have hinv : LineInv stack .nothing line.data := by
          refine ⟨pendShape_midShape (hps hne), hgl.2, (by intro hx; cases hx), ?_⟩
          cases stack with
          | nil => trivial
          | cons fn r =>
            cases fn with
            | block d => exact Or.inr hgl.1
            | quoted q e => exact (by intro hx; cases hx)
            | comment => exact absurd (hps hne) (by simp [PendShape])
        rcases runStack_good hinv hne with hfin | ⟨st2, hpend, hps3⟩ | herr
        · rw [hfin] at h
          simp only [List.length_nil, Nat.sub_zero, List.take_length, reduceIte] at h
          injection h with hb hrest
          subst hrest
          refine ⟨?_, hgtl⟩
          have hdata : b.data = acc.data ++ line.data := by
            rw [← hb]
            have hmk : String.mk line.data = line := rfl
            rw [hmk]
            exact String.data_append acc line
          exact oneTrailing_append acc.data hdata hgl.2 hgl.1 hnl1
        · rw [hpend] at h
          exact ih _ _ _ _ hgtl (fun he => absurd he (pendShape_ne_nil hps3))
            (fun _ => hps3) h
        · rw [herr] at h; cases h


theorem splitBlocksF_good :
    ∀ (fuel : Nat) (lines : List String) (r : SplitRes),
      (∀ l ∈ lines, GoodLine l) → splitBlocksF fuel lines = some r →
      ∀ b ∈ blocksOf r, oneTrailingNewline b = true := by
  intro fuel
  induction fuel with
  | zero => intro lines r _ h; cases h
  | succ n ih =>
    intro lines r hg h
    simp only [splitBlocksF] at h
    cases hr : readOne "" [] lines with
    | eof =>
      rw [hr] at h
      injection h with h2
      subst h2
      simp [blocksOf]
    | ioError =>
      rw [hr] at h
      injection h with h2
      subst h2
      simp [blocksOf]
    | valueError =>
      rw [hr] at h
      injection h with h2
      subst h2
      simp [blocksOf]
    | block b2 rest =>
      rw [hr] at h
      obtain ⟨hb2, hrg⟩ := readOne_good _ _ _ _ _ hg (fun _ => rfl)
        (fun hne => absurd rfl hne) hr
      cases hs : splitBlocksF n rest with
      | none => simp only [hs] at h; cases h
      | some r2 =>
        simp only [hs] at h
        have hrec := ih rest r2 hrg hs
        cases r2 with
        | ok bs =>
          injection h with h2
          subst h2
          intro b hb
          simp only [blocksOf, List.mem_cons] at hb
          rcases hb with hb | hb
          · rw [hb]; exact hb2
          · exact hrec b (by simpa [blocksOf] using hb)
        | ioError bs =>
          injection h with h2
          subst h2
          intro b hb
          simp only [blocksOf, List.mem_cons] at hb
          rcases hb with hb | hb
          · rw [hb]; exact hb2
          · exact hrec b (by simpa [blocksOf] using hb)
        | valueError bs =>
          injection h with h2
          subst h2
          intro b hb
          simp only [blocksOf, List.mem_cons] at hb
          rcases hb with hb | hb
          · rw [hb]; exact hb2
          · exact hrec b (by simpa [blocksOf] using hb)

/-- C4 (amended): on an input stream presented as its list of lines, each
nonempty and ending with its only newline, every block the splitter's
iteration yields — also those yielded before an `IOError` or `ValueError`
ends the run — ends with exactly one newline.  (The claim's other half,
that blank lines before content are skipped, is refuted separately: an
idle-state blank line yields its own bare-newline block.) -/
theorem splitter_one_trailing_newline (lines : List String)
    (hg : ∀ l ∈ lines, GoodLine l) :
    ∀ b ∈ blocksOf (splitBlocks lines), oneTrailingNewline b = true := by
  unfold splitBlocks
  have htot := splitBlocksF_total (lines.length + 1) lines (by omega)
  cases hr : splitBlocksF (lines.length + 1) lines with
  | none => rw [hr] at htot; cases htot
  | some r => simpa using splitBlocksF_good _ _ _ hg hr

theorem splitter_one_trailing_newline_witness :
    (∀ l ∈ [("\n" : String), "a: 1\n", "b \x7b\n", "\x7d\n"], GoodLine l) ∧
    (∀ b ∈ blocksOf (splitBlocks [("\n" : String), "a: 1\n", "b \x7b\n", "\x7d\n"]),
      oneTrailingNewline b = true) :=
  ⟨by decide, splitter_one_trailing_newline _ (by decide)⟩

/-- C4 (counterexample): on the stream `"\n"` then `"a: 1\n"`, the first
yielded block is `"\n"`, which consists only of blank input — the idle
blank line is not skipped, because the `while self.states` loop body never
runs on it and the `else` branch returns the empty buffer plus the appended
newline. -/
theorem splitter_blank_counterexample :
    splitBlocks [("\n" : String), "a: 1\n"] = .ok ["\n", "a: 1\n"] ∧
    ("\n" : String).data.all YP.pyIsSpace = true := by decide

end PB
